import Mathlib

/-!
Verification of the markdown-to-Moodle-XML converter (`m2m.py`).

The development shallowly embeds the core pipeline of the source file:
the line classifier (regex predicates), the top-down parser
`md_script_to_dictionary`, the scoring completer `completing_dictionary`,
and the renderers `render_answer` / `replace_single_line_code` /
`replace_multi_line_code` / `replace_latex` together with the substitution
semantics of the regex patterns they are applied with (`re.sub` scanning,
greedy matching).  Text is modelled as `List Char`; Python floats are
modelled as `ℚ` with explicit 7-decimal banker's rounding (`pyRound7`);
code that can raise (`KeyError`) returns `Except Unit`.  The external
collaborators (the `markdown` library, pygments highlighting plus base64)
are abstracted as function parameters, exactly at the call sites where the
source invokes them.
-/

namespace M2M

/-- The backtick character (markdown code-span delimiter). -/
def btick : Char := Char.ofNat 96

/-- One pass of Python `str.replace` with a one-character pattern:
every occurrence of the character `c` is replaced by the string `r`;
replacement text is not rescanned. -/
def replaceChar (c : Char) (r : List Char) (s : List Char) : List Char :=
  (s.map (fun ch => if ch = c then r else [ch])).flatten

/-- `sanitize_entities` from the source: replace `&` by `&amp;`, then `>`
by `&gt;`, then `<` by `&lt;` — in that order. -/
def sanitize_entities (s : List Char) : List Char :=
  replaceChar '<' "&lt;".data
    (replaceChar '>' "&gt;".data (replaceChar '&' "&amp;".data s))

/-- Whether `pat` occurs as a contiguous substring of `s`
(Python `str.find(pat) > -1`). -/
def containsSub (pat : List Char) : List Char → Bool
  | [] => pat.isEmpty
  | c :: rest => pat.isPrefixOf (c :: rest) || containsSub pat rest

/-- Index of the first occurrence of `pat` in `s` (Python `str.find`,
with `none` for `-1`). -/
def firstIdxSub (pat : List Char) : List Char → Option Nat
  | [] => if pat.isEmpty then some 0 else none
  | c :: rest =>
    if pat.isPrefixOf (c :: rest) then some 0
    else (firstIdxSub pat rest).map (· + 1)

/-- Python `str.replace` with a (nonempty) multi-character pattern:
replace every non-overlapping occurrence of `pat` by `rep`, scanning left
to right. -/
def replaceSub (pat rep : List Char) : List Char → List Char
  | [] => []
  | c :: rest =>
    if pat.isPrefixOf (c :: rest) ∧ pat ≠ [] then
      rep ++ replaceSub pat rep (rest.drop (pat.length - 1))
    else
      c :: replaceSub pat rep rest
termination_by l => l.length
decreasing_by
  · simp only [List.length_drop, List.length_cons]; omega
  · simp only [List.length_cons]; omega

/-- The characters matched by the regex class `\s`. -/
def isWS (c : Char) : Bool :=
  c = ' ' || c = '\t' || c = '\r' || c = '\n' || c = '\x0b' || c = '\x0c'

/-- `get_header`: the regex `^\s*# (.*)$` — leading whitespace, `#`,
a space, then the captured caption. -/
def get_header (s : List Char) : Option (List Char) :=
  match s.dropWhile isWS with
  | c :: c2 :: rest => if c = '#' ∧ c2 = ' ' then some rest else none
  | _ => none

/-- `get_question`: the regex `^(\s*)\*(\s)(.*)$` — leading whitespace,
`*`, exactly one whitespace character, then the captured text. -/
def get_question (s : List Char) : Option (List Char) :=
  match s.dropWhile isWS with
  | c :: c2 :: rest => if c = '*' ∧ isWS c2 then some rest else none
  | _ => none

/-- `get_correct_answer`: the regex `^(\s*)-(\s)!(.*)$`. -/
def get_correct_answer (s : List Char) : Option (List Char) :=
  match s.dropWhile isWS with
  | c :: c2 :: c3 :: rest => if c = '-' ∧ isWS c2 ∧ c3 = '!' then some rest else none
  | _ => none

/-- `get_wrong_answer`: the regex `^(\s*)-(\s)(.*[^ ])$` — the body is
nonempty and must not end in a space character. -/
def get_wrong_answer (s : List Char) : Option (List Char) :=
  match s.dropWhile isWS with
  | c :: c2 :: rest =>
    if c = '-' ∧ isWS c2 ∧ rest ≠ [] ∧ rest.getLast? ≠ some ' ' then some rest else none
  | _ => none

/-- `is_header` from the source. -/
def is_header (s : List Char) : Bool := (get_header s).isSome

/-- `is_question` from the source. -/
def is_question (s : List Char) : Bool := (get_question s).isSome

/-- `is_correct_answer` from the source. -/
def is_correct_answer (s : List Char) : Bool := (get_correct_answer s).isSome

/-- `is_wrong_answer` from the source. -/
def is_wrong_answer (s : List Char) : Bool := (get_wrong_answer s).isSome

/-- The regex `^\s*$`: a whitespace-only (blank) line. -/
def isEmptyRow (s : List Char) : Bool := s.all isWS

/-- An answer record: `{'text': ..., 'correct': ...}`, with the `weight`
key absent (`none`) until the completer adds it. -/
structure Answer where
  text : List Char
  correct : Bool
  weight : Option ℚ
deriving DecidableEq

/-- A question record: `{'text': ..., 'answers': [...]}`, with the
`single` key absent (`none`) until the completer adds it. -/
structure Question where
  text : List Char
  answers : List Answer
  single : Option Bool
deriving DecidableEq

/-- Where the Python `current_question` object currently lives. -/
inductive Loc where
  | orphan
  | dict (c : List Char)
deriving DecidableEq

/-- The shape of the Python `current_question` reference: the initial
empty dict `{}` (`missing`), an unattached dict that only gained a
`text` key through continuation lines (`loose`), the last question of a
live list (`attached`), or a question whose containing list was replaced
by a re-bound header and is no longer reachable from the output
(`detached`). -/
inductive Cur where
  | missing
  | loose (text : List Char)
  | attached (loc : Loc)
  | detached (q : Question)
deriving DecidableEq

/-- Parser state: the output dictionary (insertion-ordered association
list), the caption of the active section (`none` before the first
header, when `section` still aliases the initial unbound list), the
unbound orphan list itself, and the `current_question` reference. -/
structure PState where
  dict : List (List Char × List Question)
  active : Option (List Char)
  orphan : List Question
  cur : Cur
deriving DecidableEq

/-- The initial parser state (`dictionary = {}`, `section = []`,
`current_question = {}`). -/
def initState : PState := ⟨[], none, [], .missing⟩

/-- Mutate the last element of a list in place (no-op on `[]`). -/
def modifyLast (f : Question → Question) : List Question → List Question
  | [] => []
  | [q] => [f q]
  | q :: qs => q :: modifyLast f qs

/-- `dictionary[caption] = []`: re-assignment keeps the key's original
position and replaces its value; a new key is appended. -/
def bindSection (d : List (List Char × List Question)) (c : List Char) :
    List (List Char × List Question) :=
  if d.any (fun e => e.1 == c) then
    d.map (fun e => if e.1 = c then (e.1, []) else e)
  else
    d ++ [(c, [])]

/-- Apply `f` to the section list bound to caption `c`. -/
def updateSec (d : List (List Char × List Question)) (c : List Char)
    (f : List Question → List Question) : List (List Char × List Question) :=
  d.map (fun e => if e.1 = c then (e.1, f e.2) else e)

/-- Look up the section list bound to caption `c`. -/
def lookupSec (d : List (List Char × List Question)) (c : List Char) :
    Option (List Question) :=
  (d.find? (fun e => e.1 == c)).map Prod.snd

/-- When a header re-binds the caption that `current_question`'s section
is stored under, the question object survives but its list is dropped
from the dictionary: it becomes detached. -/
def detachIfAt (s : PState) (c : List Char) : PState :=
  match s.cur with
  | .attached (.dict c2) =>
    if c2 = c then
      match (lookupSec s.dict c).bind List.getLast? with
      | some q => { s with cur := .detached q }
      | none => s
    else s
  | _ => s

/-- `current_question['answers'].append(answer)`: a `KeyError` (modelled
as `Except.error`) when the current question has no `answers` key, i.e.
when no question line has been seen yet. -/
def addAnswerTo (s : PState) (a : Answer) : Except Unit PState :=
  let push := fun q => { q with answers := q.answers ++ [a] }
  match s.cur with
  | .missing => .error ()
  | .loose _ => .error ()
  | .attached .orphan => .ok { s with orphan := modifyLast push s.orphan }
  | .attached (.dict c) => .ok { s with dict := updateSec s.dict c (modifyLast push) }
  | .detached q => .ok { s with cur := .detached (push q) }

/-- `current_question['text'] += suffix`, initializing the `text` key to
the empty string if it is absent. -/
def appendToCurText (s : PState) (suffix : List Char) : PState :=
  let app := fun q => { q with text := q.text ++ suffix }
  match s.cur with
  | .missing => { s with cur := .loose suffix }
  | .loose t => { s with cur := .loose (t ++ suffix) }
  | .attached .orphan => { s with orphan := modifyLast app s.orphan }
  | .attached (.dict c) => { s with dict := updateSec s.dict c (modifyLast app) }
  | .detached q => { s with cur := .detached (app q) }

/-- The accumulated `text` of the current question (`none` when the
`text` key is absent). -/
def curText (s : PState) : Option (List Char) :=
  match s.cur with
  | .missing => none
  | .loose t => some t
  | .attached .orphan => (s.orphan.getLast?).map Question.text
  | .attached (.dict c) =>
    ((lookupSec s.dict c).bind List.getLast?).map Question.text
  | .detached q => some q.text

/-- The blank-line branch of the parser: if the current question's text
exists and contains a triple backtick anywhere, append the blank line's
content plus a newline to it; otherwise do nothing. -/
def blankStep (s : PState) (row : List Char) : PState :=
  match curText s with
  | none => s
  | some t =>
    if containsSub "```".data t then appendToCurText s (row ++ ['\n']) else s

/-- One iteration of the parser loop of `md_script_to_dictionary`,
processing a single (already `\r`-stripped) line. -/
def step (s : PState) (row : List Char) : Except Unit PState :=
  if is_header row then
    let c := (get_header row).getD []
    let s2 := detachIfAt s c
    .ok { s2 with dict := bindSection s2.dict c, active := some c }
  else if is_question row then
    let q : Question := { text := (get_question row).getD [], answers := [], single := none }
    match s.active with
    | none => .ok { s with orphan := s.orphan ++ [q], cur := .attached .orphan }
    | some c =>
      .ok { s with dict := updateSec s.dict c (fun l => l ++ [q]),
                   cur := .attached (.dict c) }
  else if is_correct_answer row then
    addAnswerTo s { text := (get_correct_answer row).getD [], correct := true, weight := none }
  else if is_wrong_answer row then
    addAnswerTo s { text := (get_wrong_answer row).getD [], correct := false, weight := none }
  else if isEmptyRow row then
    .ok (blankStep s row)
  else
    .ok (appendToCurText s (row ++ ['\n']))

/-- Run the parser loop over a list of rows. -/
def processRows (s : PState) : List (List Char) → Except Unit PState
  | [] => .ok s
  | r :: rs =>
    match step s r with
    | .error e => .error e
    | .ok s2 => processRows s2 rs

/-- Python `str.split('\n')`. -/
def splitNL : List Char → List (List Char)
  | [] => [[]]
  | c :: rest =>
    if c = '\n' then [] :: splitNL rest
    else
      match splitNL rest with
      | r :: rs => (c :: r) :: rs
      | [] => [[c]]

/-- Python `str.rstrip(c)` for a single character. -/
def stripTrail (c : Char) (s : List Char) : List Char :=
  (s.reverse.dropWhile (fun x => x = c)).reverse

/-- The rows the parser iterates over: split the script on newlines, then
strip trailing `\r` and trailing `\n` from each row. -/
def rows (script : List Char) : List (List Char) :=
  (splitNL script).map (fun r => stripTrail '\n' (stripTrail '\r' r))

/-- Number of answers with `correct=True`. -/
def countCorrect (l : List Answer) : Nat := l.countP (fun a => a.correct)

/-- Round a rational to the nearest integer, ties to even — the rounding
used by Python's `round`.  (The source computes on binary floats; on the
values this program produces — `10^9 / n` for small `n` — the two agree,
as no value lies within float error of a tie.) -/
def roundHalfEven (q : ℚ) : ℤ :=
  let f := ⌊q⌋
  let r := q - (f : ℚ)
  if r < 1 / 2 then f
  else if 1 / 2 < r then f + 1
  else if f % 2 = 0 then f else f + 1

/-- Python `round(x, 7)`. -/
def pyRound7 (q : ℚ) : ℚ := (roundHalfEven (q * 10000000) : ℚ) / 10000000

/-- The per-answer part of the completer: correct answers get the shared
`weight`, incorrect answers get weight `0`. -/
def completing_answers (w : ℚ) (l : List Answer) : List Answer :=
  l.map (fun a =>
    if a.correct then { a with weight := some w } else { a with weight := some 0 })

/-- The per-question part of `completing_dictionary`: clamp the correct
count to at least 1, set `single = (count == 1)` on the clamped count,
and distribute `round(100.0 / count, 7)` over the correct answers. -/
def completing_question (q : Question) : Question :=
  let n0 := countCorrect q.answers
  let n := if n0 < 1 then 1 else n0
  { q with single := some (n == 1),
           answers := completing_answers (pyRound7 (100 / (n : ℚ))) q.answers }

/-- `completing_dictionary` from the source. -/
def completing_dictionary (d : List (List Char × List Question)) :
    List (List Char × List Question) :=
  d.map (fun e => (e.1, e.2.map completing_question))

/-- `md_script_to_dictionary` from the source: run the line loop, then
the completer.  An answer line hitting a question dict without an
`answers` key raises (`Except.error`). -/
def md_script_to_dictionary (script : List Char) :
    Except Unit (List (List Char × List Question)) :=
  (processRows initState (rows script)).map (fun s => completing_dictionary s.dict)

/-- `wrap_cdata` from the source. -/
def wrap_cdata (html : List Char) : List Char :=
  "<![CDATA[".data ++ html ++ "]]>".data

/-- `replace_single_line_code` from the source, applied to the captured
span content: escape entities, wrap in a `<code>` tag. -/
def replace_single_line_code (code : List Char) : List Char :=
  "<code>".data ++ sanitize_entities code ++ "</code>".data

/-- Scanner for `re.sub` with the pattern of one backtick, one or more
non-backtick characters (captured), one backtick.  `buf = some b` means a
candidate opening backtick was seen and `b` is the (backtick-free)
content read so far; an adjacent pair of backticks is no match, and the
second backtick is retried as an opener, exactly as the regex engine
advances. -/
def codeSubGo (buf : Option (List Char)) : List Char → List Char
  | [] =>
    match buf with
    | none => []
    | some b => btick :: b
  | c :: rest =>
    match buf with
    | none => if c = btick then codeSubGo (some []) rest else c :: codeSubGo none rest
    | some b =>
      if c = btick then
        if b.isEmpty then btick :: codeSubGo (some []) rest
        else replace_single_line_code b ++ codeSubGo none rest
      else codeSubGo (some (b ++ [c])) rest

/-- `re.sub(SINGLE_LINE_CODE_PATTERN, replace_single_line_code, s)`. -/
def sub_single_line_code (s : List Char) : List Char := codeSubGo none s

/-- Existence of a match of the single-line-code pattern
(`re.search(SINGLE_LINE_CODE_PATTERN, s)`); same scan as `codeSubGo`,
with `buf = some ne` recording whether the open span is nonempty. -/
def hasCodeGo (buf : Option Bool) : List Char → Bool
  | [] => false
  | c :: rest =>
    match buf with
    | none => if c = btick then hasCodeGo (some false) rest else hasCodeGo none rest
    | some ne =>
      if c = btick then
        if ne then true else hasCodeGo (some false) rest
      else hasCodeGo (some true) rest

/-- `re.search(SINGLE_LINE_CODE_PATTERN, s)` as a Boolean. -/
def has_single_line_code (s : List Char) : Bool := hasCodeGo none s

/-- Index of the last `$` in a row (`none` if there is none). -/
def lastDollarIdx : List Char → Option Nat
  | [] => none
  | c :: rest =>
    match lastDollarIdx rest with
    | some i => some (i + 1)
    | none => if c = '$' then some 0 else none

/-- Index of the last position where `$$` starts in a row. -/
def lastDDIdx : List Char → Option Nat
  | [] => none
  | c :: rest =>
    match lastDDIdx rest with
    | some i => some (i + 1)
    | none => if c = '$' ∧ rest.head? = some '$' then some 0 else none

/-- `replace_latex` from the source, applied to the captured math body:
replace `(` by `\left(` and then `)` by `\right)`, and emit the result
between the literals `'\\\\\('` and `'\\\\)'` — which denote three
backslashes plus `(`, and two backslashes plus `)`. -/
def replace_latex (code : List Char) : List Char :=
  let c2 := replaceChar ')' "\\right)".data (replaceChar '(' "\\left(".data code)
  "\\\\\\(".data ++ c2 ++ "\\\\)".data

/-- One row of `re.sub(SINGLE_DOLLAR_LATEX_PATTERN, replace_latex, s)`:
at a `$`, the greedy `(.+)` captures up to the last `$` of the row
(provided at least one character lies between); otherwise the regex
engine advances one character. -/
def dollarLineSub : List Char → List Char
  | [] => []
  | c :: rest =>
    if c = '$' then
      match lastDollarIdx rest with
      | some k =>
        if 1 ≤ k then replace_latex (rest.take k) ++ dollarLineSub (rest.drop (k + 1))
        else '$' :: dollarLineSub rest
      | none => '$' :: dollarLineSub rest
    else c :: dollarLineSub rest
termination_by l => l.length
decreasing_by
  all_goals simp only [List.length_drop, List.length_cons]; omega

/-- One row of `re.sub(DOUBLE_DOLLAR_LATEX_PATTERN, replace_latex, s)`:
at a `$$`, the greedy `(.+)` captures up to the last following `$$` of
the row (at least one character in between); otherwise advance one
character. -/
def ddollarLineSub : List Char → List Char
  | [] => []
  | '$' :: '$' :: rest =>
    (match lastDDIdx rest with
     | some k =>
       if 1 ≤ k then replace_latex (rest.take k) ++ ddollarLineSub (rest.drop (k + 2))
       else '$' :: ddollarLineSub ('$' :: rest)
     | none => '$' :: ddollarLineSub ('$' :: rest))
  | c :: rest => c :: ddollarLineSub rest
termination_by l => l.length
decreasing_by
  all_goals simp only [List.length_drop, List.length_cons]; omega

/-- Join rows back with newlines (inverse of `splitNL` on match-free
text).  Since `.` never matches `\n`, a dollar-pattern match never
crosses a row boundary, so substitution distributes over rows. -/
def joinNL (ls : List (List Char)) : List Char := (ls.intersperse ['\n']).flatten

/-- `re.sub(SINGLE_DOLLAR_LATEX_PATTERN, replace_latex, s)` on the whole
text. -/
def sub_single_dollar_latex (s : List Char) : List Char :=
  joinNL ((splitNL s).map dollarLineSub)

/-- `re.sub(DOUBLE_DOLLAR_LATEX_PATTERN, replace_latex, s)` on the whole
text. -/
def sub_double_dollar_latex (s : List Char) : List Char :=
  joinNL ((splitNL s).map ddollarLineSub)

/-- One row of `re.search(SINGLE_DOLLAR_LATEX_PATTERN, s)`. -/
def hasDollarLine : List Char → Bool
  | [] => false
  | c :: rest =>
    if c = '$' then
      match lastDollarIdx rest with
      | some k => if 1 ≤ k then true else hasDollarLine rest
      | none => hasDollarLine rest
    else hasDollarLine rest

/-- `re.search(SINGLE_DOLLAR_LATEX_PATTERN, s)` as a Boolean. -/
def has_single_dollar_latex (s : List Char) : Bool :=
  (splitNL s).any hasDollarLine

/-- The two substitution stages of `render_answer`, together with the
`convert_html` flag: if the text has an inline-code span, escape the
whole text and substitute the spans; if the result has a single-dollar
math span, substitute it; the flag records whether either fired. -/
def answerTransformed (text : List Char) : List Char × Bool :=
  let p1 :=
    if has_single_line_code text then (sub_single_line_code (sanitize_entities text), true)
    else (text, false)
  if has_single_dollar_latex p1.1 then (sub_single_dollar_latex p1.1, true) else p1

/-- `render_answer` from the source, with the external `markdown`
renderer abstracted as `md`: if either transformation fired, the
transformed text goes through `md` and is wrapped in CDATA; otherwise
the text is returned unchanged. -/
def render_answer (md : List Char → List Char) (text : List Char) : List Char :=
  let p := answerTransformed text
  if p.2 then wrap_cdata (md p.1) else p.1

/-- `convert_code_image_base64` from the source, with the pygments
highlight-to-PNG plus base64 encoding abstracted as `hl` (the
`ClassNotFound` fallback inside pygments is part of that collaborator;
the empty-language fallback to `'pascal'` is the source's own). -/
def convert_code_image_base64 (hl : List Char → List Char → List Char)
    (lexer code : List Char) : List Char :=
  let lx := if lexer.isEmpty then "pascal".data else lexer
  "<img style=\"display:block;\" src=\"data:image/png;base64,".data ++
    hl lx code ++ "\" />".data

/-- `replace_multi_line_code` from the source, applied to the captured
language tag and code body: rasterize when `lexer.find('{img}') > 0`
(strictly positive — an occurrence at index 0 does not count), else
escape entities and wrap in `<pre><code>`. -/
def replace_multi_line_code (hl : List Char → List Char → List Char)
    (lexer code : List Char) : List Char :=
  let toImage :=
    match firstIdxSub "{img}".data lexer with
    | some i => decide (0 < i)
    | none => false
  if toImage then
    convert_code_image_base64 hl (replaceSub "{img}".data [] lexer) code
  else
    "<pre><code>".data ++ sanitize_entities code ++ "</code></pre>".data

/-- Whether the Python `current_question` dict has an `answers` key: true
exactly for question objects created by a question line (attached or
detached), false for the initial `{}` and for a loose text-only dict. -/
def curHasAnswers : Cur → Bool
  | .missing => false
  | .loose _ => false
  | .attached _ => true
  | .detached _ => true

/-- Scan of a row list checking that every answer-shaped row is preceded
by some question-shaped row (the accumulator is whether a question row
has been seen). -/
def answersAfterQuestion : Bool → List (List Char) → Bool
  | _, [] => true
  | seenQ, r :: rs =>
    if is_question r then answersAfterQuestion true rs
    else if is_correct_answer r || is_wrong_answer r then
      seenQ && answersAfterQuestion seenQ rs
    else answersAfterQuestion seenQ rs

/-- Sum of `weight` over the answers with `correct=True`. -/
def correct_weight_sum (l : List Answer) : ℚ :=
  ((l.filter (fun a => a.correct)).map (fun a => a.weight.getD 0)).sum

/-- Erase from the `current_question` reference every piece of parsed
content that is not reachable from the output dictionary: the text of a
loose question is dropped.  Only the kind of the reference is kept,
except for a detached question, whose payload always originates from the
dictionary itself (it is created by `detachIfAt` from a dictionary
entry). -/
def scrubCur : Cur → Cur
  | .missing => .missing
  | .loose _ => .loose []
  | .attached loc => .attached loc
  | .detached q => .detached q

/-- A state with the same dictionary and active caption, but with the
unbound orphan list emptied and the `current_question` reference
content-erased by `scrubCur`: everything that cannot reach the output
dictionary is gone. -/
def scrubState (s : PState) : PState := ⟨s.dict, s.active, [], scrubCur s.cur⟩

/-!  ### Helper lemmas about the scoring completer -/

theorem countCorrect_completing (w : ℚ) (l : List Answer) :
    countCorrect (completing_answers w l) = countCorrect l := by
  unfold countCorrect completing_answers
  rw [List.countP_map]
  apply List.countP_congr
  intro a _
  by_cases h : a.correct <;> simp [h, Function.comp]

theorem completing_answers_idem (w w2 : ℚ) (l : List Answer) :
    completing_answers w2 (completing_answers w l) = completing_answers w2 l := by
  induction l with
  | nil => rfl
  | cons a t ih =>
    by_cases h : a.correct <;>
      simp [completing_answers, h, List.map_cons] at * <;> exact ih

theorem completing_question_idem (q : Question) :
    completing_question (completing_question q) = completing_question q := by
  cases q with
  | mk t ans sg =>
    simp only [completing_question, countCorrect_completing]
    rw [completing_answers_idem]

theorem correct_weight_sum_completing (w : ℚ) (l : List Answer) :
    correct_weight_sum (completing_answers w l) = (countCorrect l : ℚ) * w := by
  induction l with
  | nil => simp [correct_weight_sum, completing_answers, countCorrect]
  | cons a t ih =>
    by_cases h : a.correct
    · have e1 : completing_answers w (a :: t) =
          ({ a with weight := some w } : Answer) :: completing_answers w t := by
        simp [completing_answers, h]
      have e2 : countCorrect (a :: t) = countCorrect t + 1 := by
        simp [countCorrect, List.countP_cons, h]
      have e3 : correct_weight_sum
            (({ a with weight := some w } : Answer) :: completing_answers w t) =
          w + correct_weight_sum (completing_answers w t) := by
        simp [correct_weight_sum, List.filter_cons, h]
      rw [e1, e3, ih, e2]
      push_cast
      ring
    · have e1 : completing_answers w (a :: t) =
          ({ a with weight := some 0 } : Answer) :: completing_answers w t := by
        simp [completing_answers, h]
      have e2 : countCorrect (a :: t) = countCorrect t := by
        simp [countCorrect, List.countP_cons, h]
      have e3 : correct_weight_sum
            (({ a with weight := some 0 } : Answer) :: completing_answers w t) =
          correct_weight_sum (completing_answers w t) := by
        simp [correct_weight_sum, List.filter_cons, h]
      rw [e1, e3, ih, e2]

/-- Evaluation rule for `pyRound7` when the scaled value lies strictly
within half a unit of the integer `k` (no tie). -/
theorem pyRound7_eq (q : ℚ) (k : ℤ) (h1 : (k : ℚ) - 1 / 2 < q * 10000000)
    (h2 : q * 10000000 < (k : ℚ) + 1 / 2) : pyRound7 q = (k : ℚ) / 10000000 := by
  unfold pyRound7 roundHalfEven
  have hfk : ⌊q * 10000000⌋ = k ∨ ⌊q * 10000000⌋ = k - 1 := by
    have hlt : ⌊q * 10000000⌋ < k + 1 := by
      apply Int.floor_lt.mpr
      push_cast
      linarith
    have hge : k - 1 ≤ ⌊q * 10000000⌋ := by
      apply Int.le_floor.mpr
      push_cast
      linarith
    omega
  rcases hfk with h | h
  · have hc : q * 10000000 - ((k : ℤ) : ℚ) < 1 / 2 := by linarith
    rw [h, if_pos hc]
  · have hc1 : ¬ (q * 10000000 - ((k - 1 : ℤ) : ℚ) < 1 / 2) := by
      push_cast
      intro hcon
      linarith
    have hc2 : (1 : ℚ) / 2 < q * 10000000 - ((k - 1 : ℤ) : ℚ) := by
      push_cast
      linarith
    rw [h, if_neg hc1, if_pos hc2]
    push_cast
    ring

/-- If the nearest multiple of `n` to `10^9` is within `10`, the weight
sum is within `10^-6` of `100`. -/
theorem sum_close_aux (n : ℕ) (k : ℤ)
    (h1 : (k : ℚ) - 1 / 2 < 1000000000 / (n : ℚ))
    (h2 : 1000000000 / (n : ℚ) < (k : ℚ) + 1 / 2)
    (h3 : |(n : ℚ) * k - 1000000000| ≤ 10) :
    |(n : ℚ) * pyRound7 (100 / (n : ℚ)) - 100| ≤ 1 / 1000000 := by
  have hq : (100 : ℚ) / (n : ℚ) * 10000000 = 1000000000 / (n : ℚ) := by
    ring
  rw [pyRound7_eq (100 / (n : ℚ)) k (by rw [hq]; exact h1) (by rw [hq]; exact h2)]
  have he : (n : ℚ) * ((k : ℚ) / 10000000) - 100 =
      ((n : ℚ) * k - 1000000000) / 10000000 := by ring
  rw [he, abs_div, abs_of_pos (by norm_num : (0:ℚ) < 10000000)]
  rw [div_le_iff₀ (by norm_num : (0:ℚ) < 10000000)]
  linarith

theorem completing_question_single (q : Question) :
    (completing_question q).single =
      some ((if countCorrect q.answers < 1 then 1 else countCorrect q.answers) == 1) := rfl

theorem completing_question_answers (q : Question) :
    (completing_question q).answers =
      completing_answers
        (pyRound7 (100 /
          ((if countCorrect q.answers < 1 then 1 else countCorrect q.answers : ℕ) : ℚ)))
        q.answers := rfl

theorem sum_close_of_le_25 (n : ℕ) (h1 : 1 ≤ n) (h2 : n ≤ 25) :
    |(n : ℚ) * pyRound7 (100 / (n : ℚ)) - 100| ≤ 1 / 1000000 := by
  interval_cases n
  · exact sum_close_aux 1 1000000000 (by norm_num) (by norm_num) (by norm_num)
  · exact sum_close_aux 2 500000000 (by norm_num) (by norm_num) (by norm_num)
  · exact sum_close_aux 3 333333333 (by norm_num) (by norm_num) (by norm_num)
  · exact sum_close_aux 4 250000000 (by norm_num) (by norm_num) (by norm_num)
  · exact sum_close_aux 5 200000000 (by norm_num) (by norm_num) (by norm_num)
  · exact sum_close_aux 6 166666667 (by norm_num) (by norm_num) (by norm_num)
  · exact sum_close_aux 7 142857143 (by norm_num) (by norm_num) (by norm_num)
  · exact sum_close_aux 8 125000000 (by norm_num) (by norm_num) (by norm_num)
  · exact sum_close_aux 9 111111111 (by norm_num) (by norm_num) (by norm_num)
  · exact sum_close_aux 10 100000000 (by norm_num) (by norm_num) (by norm_num)
  · exact sum_close_aux 11 90909091 (by norm_num) (by norm_num) (by norm_num)
  · exact sum_close_aux 12 83333333 (by norm_num) (by norm_num) (by norm_num)
  · exact sum_close_aux 13 76923077 (by norm_num) (by norm_num) (by norm_num)
  · exact sum_close_aux 14 71428571 (by norm_num) (by norm_num) (by norm_num)
  · exact sum_close_aux 15 66666667 (by norm_num) (by norm_num) (by norm_num)
  · exact sum_close_aux 16 62500000 (by norm_num) (by norm_num) (by norm_num)
  · exact sum_close_aux 17 58823529 (by norm_num) (by norm_num) (by norm_num)
  · exact sum_close_aux 18 55555556 (by norm_num) (by norm_num) (by norm_num)
  · exact sum_close_aux 19 52631579 (by norm_num) (by norm_num) (by norm_num)
  · exact sum_close_aux 20 50000000 (by norm_num) (by norm_num) (by norm_num)
  · exact sum_close_aux 21 47619048 (by norm_num) (by norm_num) (by norm_num)
  · exact sum_close_aux 22 45454545 (by norm_num) (by norm_num) (by norm_num)
  · exact sum_close_aux 23 43478261 (by norm_num) (by norm_num) (by norm_num)
  · exact sum_close_aux 24 41666667 (by norm_num) (by norm_num) (by norm_num)
  · exact sum_close_aux 25 40000000 (by norm_num) (by norm_num) (by norm_num)

/-- Sample inputs used to instantiate the claim theorems. -/
def sampleQ1 : Question := ⟨[], [⟨['a'], true, none⟩], none⟩

/-- A one-section document with one question and one correct answer. -/
def sampleD1 : List (List Char × List Question) := [(['S'], [sampleQ1])]

/-- A question with 26 correct answers. -/
def sampleQ26 : Question := ⟨[], List.replicate 26 ⟨['a'], true, none⟩, none⟩

/-- C1: for every document passed through the Scoring Completer and every
question in it, the computed `single` flag is `true` exactly when the
number of answers with `correct=true` is one or zero (the zero case via
the clamped denominator). -/
theorem c1_single_iff (d : List (List Char × List Question)) (cap : List Char)
    (sec : List Question) (q : Question)
    (hsec : (cap, sec) ∈ completing_dictionary d) (hq : q ∈ sec) :
    q.single = some true ↔ (countCorrect q.answers = 1 ∨ countCorrect q.answers = 0) := by
  unfold completing_dictionary at hsec
  obtain ⟨e, hmem, heq⟩ := List.mem_map.1 hsec
  simp only [Prod.mk.injEq] at heq
  obtain ⟨h1, h2⟩ := heq
  rw [← h2] at hq
  obtain ⟨q0, hq0, rfl⟩ := List.mem_map.1 hq
  rw [completing_question_single, completing_question_answers, countCorrect_completing]
  simp only [Option.some.injEq, beq_iff_eq]
  split_ifs with h <;> omega

/-- Witness for C1 at a concrete one-answer-free question: zero correct
answers give `single = some true`. -/
theorem c1_single_iff_witness :
    (⟨[], [], some true⟩ : Question).single = some true ↔
      (countCorrect (⟨[], [], some true⟩ : Question).answers = 1 ∨
       countCorrect (⟨[], [], some true⟩ : Question).answers = 0) :=
  c1_single_iff [([], [⟨[], [], none⟩])] [] [⟨[], [], some true⟩] ⟨[], [], some true⟩
    (by decide) (by decide)

/-- C2 (amended): after the completer, every correct answer has weight
`round(100.0/correctCount, 7)` and every incorrect answer has weight `0`;
the weight sum over correct answers is within `10^-6` of `100` whenever
the correct count is between 1 and 25 — but (see the counterexample) not
for arbitrarily many correct answers. -/
theorem c2_weights (d : List (List Char × List Question)) (cap : List Char)
    (sec : List Question) (q : Question)
    (hsec : (cap, sec) ∈ completing_dictionary d) (hq : q ∈ sec) :
    (∀ a ∈ q.answers,
      (a.correct = true →
        a.weight = some (pyRound7 (100 / (countCorrect q.answers : ℚ)))) ∧
      (a.correct = false → a.weight = some 0)) ∧
    (1 ≤ countCorrect q.answers → countCorrect q.answers ≤ 25 →
      |correct_weight_sum q.answers - 100| ≤ 1 / 1000000) := by
  unfold completing_dictionary at hsec
  obtain ⟨e, hmem, heq⟩ := List.mem_map.1 hsec
  simp only [Prod.mk.injEq] at heq
  obtain ⟨h1, h2⟩ := heq
  rw [← h2] at hq
  obtain ⟨q0, hq0, rfl⟩ := List.mem_map.1 hq
  have hcnt : countCorrect (completing_question q0).answers = countCorrect q0.answers := by
    rw [completing_question_answers, countCorrect_completing]
  constructor
  · intro a ha
    rw [completing_question_answers] at ha
    unfold completing_answers at ha
    obtain ⟨a0, ha0, rfl⟩ := List.mem_map.1 ha
    by_cases hc : a0.correct
    · have hpos : 0 < countCorrect q0.answers :=
        List.countP_pos_iff.2 ⟨a0, ha0, hc⟩
      have hclamp : (if countCorrect q0.answers < 1 then 1 else countCorrect q0.answers) =
          countCorrect q0.answers := if_neg (by omega)
      refine ⟨fun _ => ?_, fun hfc => ?_⟩
      · rw [if_pos hc, hcnt, hclamp]
      · rw [if_pos hc] at hfc
        exact absurd hfc (by simp [hc])
    · refine ⟨fun htc => ?_, fun _ => ?_⟩
      · rw [if_neg hc] at htc
        exact absurd htc hc
      · rw [if_neg hc]
  · rw [hcnt, completing_question_answers, correct_weight_sum_completing]
    intro hge hle
    have hclamp : (if countCorrect q0.answers < 1 then 1 else countCorrect q0.answers) =
        countCorrect q0.answers := if_neg (by omega)
    rw [hclamp]
    exact sum_close_of_le_25 _ hge hle

/-- Witness for C2 at a concrete single-correct-answer question: the
weight sum of the completed question is within tolerance. -/
theorem c2_weights_witness :
    |correct_weight_sum (completing_question sampleQ1).answers - 100| ≤ 1 / 1000000 :=
  (c2_weights sampleD1 ['S'] [completing_question sampleQ1] (completing_question sampleQ1)
    (List.mem_singleton.mpr rfl) (List.mem_singleton.mpr rfl)).2 (by decide) (by decide)

/-- Counterexample to C2 as stated: with 26 correct answers the weight
sum is `99.9999988`, which is `1.2·10^-6` away from `100` — outside the
claimed `10^-6` tolerance. -/
theorem c2_sum_cex :
    1 ≤ countCorrect (completing_question sampleQ26).answers ∧
    ¬ (|correct_weight_sum (completing_question sampleQ26).answers - 100| ≤ 1 / 1000000) := by
  constructor
  · decide
  · have hcount : countCorrect sampleQ26.answers = 26 := by decide
    have h1 : (completing_question sampleQ26).answers =
        completing_answers (pyRound7 (100 / ((26 : ℕ) : ℚ))) sampleQ26.answers := by
      rw [completing_question_answers, hcount]
      norm_num
    rw [h1, correct_weight_sum_completing, hcount]
    rw [pyRound7_eq _ 38461538 (by push_cast; norm_num) (by push_cast; norm_num)]
    have h2 : ((26 : ℕ) : ℚ) * (((38461538 : ℤ) : ℚ) / 10000000) - 100 = -(3 / 2500000) := by
      push_cast
      norm_num
    rw [h2, abs_neg, abs_of_pos (by norm_num : (0:ℚ) < 3 / 2500000)]
    norm_num

/-- C9: the Scoring Completer is idempotent — running it twice on any
document yields exactly the same `single` flags and weights as running
it once. -/
theorem c9_completer_idem (d : List (List Char × List Question)) :
    completing_dictionary (completing_dictionary d) = completing_dictionary d := by
  unfold completing_dictionary
  rw [List.map_map]
  apply List.map_congr_left
  intro e _
  simp only [Function.comp]
  rw [List.map_map]
  rw [Prod.ext_iff]
  refine ⟨rfl, ?_⟩
  apply List.map_congr_left
  intro q _
  exact completing_question_idem q

/-!  ### Helper lemmas about character replacement and escaping -/

theorem replaceChar_append (c : Char) (r s t : List Char) :
    replaceChar c r (s ++ t) = replaceChar c r s ++ replaceChar c r t := by
  simp [replaceChar]

theorem replaceChar_cons (c : Char) (r : List Char) (x : Char) (s : List Char) :
    replaceChar c r (x :: s) = (if x = c then r else [x]) ++ replaceChar c r s := by
  simp [replaceChar]

theorem mem_replaceChar {x c : Char} {r s : List Char}
    (h : x ∈ replaceChar c r s) : x ∈ r ∨ x ∈ s := by
  induction s with
  | nil => simp [replaceChar] at h
  | cons y t ih =>
    rw [replaceChar_cons] at h
    rcases List.mem_append.1 h with h2 | h2
    · by_cases hy : y = c
      · rw [if_pos hy] at h2
        exact Or.inl h2
      · rw [if_neg hy] at h2
        rcases List.mem_singleton.1 h2 with rfl
        exact Or.inr (List.mem_cons_self _ _)
    · rcases ih h2 with h3 | h3
      · exact Or.inl h3
      · exact Or.inr (List.mem_cons_of_mem _ h3)

theorem not_mem_replaceChar {x c : Char} {r s : List Char}
    (h1 : x ∉ r) (h2 : x ∉ s) : x ∉ replaceChar c r s :=
  fun h => (mem_replaceChar h).elim h1 h2

theorem not_mem_replaceChar_self {c : Char} {r s : List Char}
    (h1 : c ∉ r) : c ∉ replaceChar c r s := by
  induction s with
  | nil => simp [replaceChar]
  | cons y t ih =>
    rw [replaceChar_cons]
    intro h
    rcases List.mem_append.1 h with h2 | h2
    · by_cases hy : y = c
      · rw [if_pos hy] at h2
        exact h1 h2
      · rw [if_neg hy] at h2
        exact hy ((List.mem_singleton.1 h2).symm)
    · exact ih h2

theorem not_mem_sanitize {x : Char} {s : List Char} (h : x ∉ s)
    (h1 : x ∉ "&amp;".data) (h2 : x ∉ "&gt;".data) (h3 : x ∉ "&lt;".data) :
    x ∉ sanitize_entities s :=
  not_mem_replaceChar h3 (not_mem_replaceChar h2 (not_mem_replaceChar h1 h))

theorem sanitize_no_lt_gt (s : List Char) :
    '<' ∉ sanitize_entities s ∧ '>' ∉ sanitize_entities s := by
  constructor
  · exact not_mem_replaceChar_self (by decide)
  · apply not_mem_replaceChar (by decide)
    exact not_mem_replaceChar_self (by decide)

theorem replaceChar_ne_nil {c : Char} {r s : List Char} (hr : r ≠ []) (hs : s ≠ []) :
    replaceChar c r s ≠ [] := by
  cases s with
  | nil => exact absurd rfl hs
  | cons y t =>
    rw [replaceChar_cons]
    intro h
    rcases List.append_eq_nil.1 h with ⟨h2, _⟩
    by_cases hy : y = c
    · rw [if_pos hy] at h2
      exact hr h2
    · rw [if_neg hy] at h2
      exact List.cons_ne_nil _ _ h2

theorem sanitize_ne_nil {s : List Char} (hs : s ≠ []) : sanitize_entities s ≠ [] := by
  apply replaceChar_ne_nil (by decide)
  apply replaceChar_ne_nil (by decide)
  exact replaceChar_ne_nil (by decide) hs

theorem sanitize_append (s t : List Char) :
    sanitize_entities (s ++ t) = sanitize_entities s ++ sanitize_entities t := by
  simp [sanitize_entities, replaceChar_append]

/-!  ### Helper lemmas about the inline-code scanner -/

theorem codeSubGo_none_no_btick {s : List Char} (h : btick ∉ s) :
    codeSubGo none s = s := by
  induction s with
  | nil => rfl
  | cons c t ih =>
    have hc : c ≠ btick := fun hc => h (hc ▸ List.mem_cons_self _ _)
    simp only [codeSubGo, if_neg hc]
    rw [ih (fun hm => h (List.mem_cons_of_mem _ hm))]

theorem codeSubGo_close {b : List Char} (acc : List Char) (rest : List Char)
    (hb : btick ∉ b) (hne : acc ++ b ≠ []) :
    codeSubGo (some acc) (b ++ btick :: rest) =
      replace_single_line_code (acc ++ b) ++ codeSubGo none rest := by
  induction b generalizing acc with
  | nil =>
    rw [List.append_nil] at hne ⊢
    simp only [List.nil_append, codeSubGo, if_true]
    rw [if_neg (fun hEmp => hne (List.isEmpty_iff.1 hEmp))]
  | cons x b2 ih =>
    have hx : x ≠ btick := fun hc => hb (hc ▸ List.mem_cons_self _ _)
    simp only [List.cons_append, codeSubGo, List.append_eq, if_neg hx]
    rw [ih (acc ++ [x]) (fun hm => hb (List.mem_cons_of_mem _ hm))
      (by simp), List.append_assoc, List.singleton_append]

theorem hasCodeGo_some_true {b : List Char} (rest : List Char) (hb : btick ∉ b) :
    hasCodeGo (some true) (b ++ btick :: rest) = true := by
  induction b with
  | nil => simp [hasCodeGo]
  | cons x b2 ih =>
    have hx : x ≠ btick := fun hc => hb (hc ▸ List.mem_cons_self _ _)
    simp only [List.cons_append, hasCodeGo, if_neg hx]
    exact ih (fun hm => hb (List.mem_cons_of_mem _ hm))

theorem hasCodeGo_some_false {b : List Char} (rest : List Char)
    (hb : btick ∉ b) (hbne : b ≠ []) :
    hasCodeGo (some false) (b ++ btick :: rest) = true := by
  cases b with
  | nil => exact absurd rfl hbne
  | cons x b2 =>
    have hx : x ≠ btick := fun hc => hb (hc ▸ List.mem_cons_self _ _)
    simp only [List.cons_append, hasCodeGo, if_neg hx]
    exact hasCodeGo_some_true _ (fun hm => hb (List.mem_cons_of_mem _ hm))

/-!  ### Helper lemmas about the dollar scanners and row splitting -/

theorem lastDollarIdx_none {s : List Char} (h : '$' ∉ s) : lastDollarIdx s = none := by
  induction s with
  | nil => rfl
  | cons c t ih =>
    have hc : c ≠ '$' := fun hc => h (hc ▸ List.mem_cons_self _ _)
    simp only [lastDollarIdx]
    rw [ih (fun hm => h (List.mem_cons_of_mem _ hm))]
    simp [hc]

theorem lastDollarIdx_append {b : List Char} (h : '$' ∉ b) :
    lastDollarIdx (b ++ ['$']) = some b.length := by
  induction b with
  | nil => rfl
  | cons x b2 ih =>
    simp only [List.cons_append, lastDollarIdx, List.append_eq]
    rw [ih (fun hm => h (List.mem_cons_of_mem _ hm))]
    simp

theorem lastDDIdx_append {b : List Char} (h : '$' ∉ b) :
    lastDDIdx (b ++ ['$', '$']) = some b.length := by
  induction b with
  | nil => rfl
  | cons x b2 ih =>
    simp only [List.cons_append, lastDDIdx, List.append_eq]
    rw [ih (fun hm => h (List.mem_cons_of_mem _ hm))]
    simp

theorem hasDollarLine_false {s : List Char} (h : '$' ∉ s) : hasDollarLine s = false := by
  induction s with
  | nil => rfl
  | cons c t ih =>
    have hc : c ≠ '$' := fun hc => h (hc ▸ List.mem_cons_self _ _)
    simp only [hasDollarLine, if_neg hc]
    exact ih (fun hm => h (List.mem_cons_of_mem _ hm))

theorem splitNL_no_nl {s : List Char} (h : '\n' ∉ s) : splitNL s = [s] := by
  induction s with
  | nil => rfl
  | cons c t ih =>
    have hc : c ≠ '\n' := fun hc => h (hc ▸ List.mem_cons_self _ _)
    simp only [splitNL, if_neg hc]
    rw [ih (fun hm => h (List.mem_cons_of_mem _ hm))]

theorem joinNL_single (x : List Char) : joinNL [x] = x := by
  simp [joinNL]

theorem splitNL_ne_nil (s : List Char) : splitNL s ≠ [] := by
  cases s with
  | nil => simp [splitNL]
  | cons c t =>
    simp only [splitNL]
    split
    · simp
    · split
      · simp
      · simp

theorem mem_splitNL {s l : List Char} (hl : l ∈ splitNL s) : ∀ x ∈ l, x ∈ s := by
  induction s generalizing l with
  | nil =>
    simp only [splitNL, List.mem_singleton] at hl
    subst hl
    intro x hx
    exact absurd hx (List.not_mem_nil x)
  | cons c t ih =>
    simp only [splitNL] at hl
    by_cases hc : c = '\n'
    · rw [if_pos hc] at hl
      rcases List.mem_cons.1 hl with rfl | hl2
      · intro x hx
        exact absurd hx (List.not_mem_nil x)
      · intro x hx
        exact List.mem_cons_of_mem _ (ih hl2 x hx)
    · rw [if_neg hc] at hl
      rcases hsp : splitNL t with _ | ⟨r, rs⟩
      · exact absurd hsp (splitNL_ne_nil t)
      · rw [hsp] at hl
        rcases List.mem_cons.1 hl with rfl | hl2
        · intro x hx
          rcases List.mem_cons.1 hx with rfl | hx2
          · exact List.mem_cons_self _ _
          · have hr : r ∈ splitNL t := by rw [hsp]; exact List.mem_cons_self _ _
            exact List.mem_cons_of_mem _ (ih hr x hx2)
        · intro x hx
          have hm : l ∈ splitNL t := by rw [hsp]; exact List.mem_cons_of_mem _ hl2
          exact List.mem_cons_of_mem _ (ih hm x hx)

theorem has_single_dollar_latex_false {s : List Char} (h : '$' ∉ s) :
    has_single_dollar_latex s = false := by
  unfold has_single_dollar_latex
  rw [List.any_eq_false]
  intro l hl
  simp [hasDollarLine_false (fun hm => h (mem_splitNL hl '$' hm))]

theorem hasCodeGo_none_btick (rest : List Char) :
    hasCodeGo none (btick :: rest) = hasCodeGo (some false) rest := by
  simp [hasCodeGo]

theorem codeSubGo_none_btick (rest : List Char) :
    codeSubGo none (btick :: rest) = codeSubGo (some []) rest := by
  simp [codeSubGo]

/-- Counterexample to C3 as stated: the answer text made of a code span
containing `a&b` renders with the double-escaped sequence `&amp;amp;` —
`render_answer` escapes the whole text once and then
`replace_single_line_code` escapes the span content a second time. -/
theorem c3_escape_cex :
    render_answer (fun s => s) "`a&b`".data = "<![CDATA[<code>a&amp;amp;b</code>]]>".data ∧
    containsSub "&amp;amp;".data (render_answer (fun s => s) "`a&b`".data) = true := by
  exact ⟨rfl, rfl⟩

/-- C3 (amended): inside an inline-code span of an answer, the Inline
Renderer escapes `&`, `>`, `<` twice, not once — the span content `c`
appears as `sanitize_entities (sanitize_entities c)` inside the `<code>`
wrapper (so `&` becomes `&amp;amp;`); it remains true that the escaped
content contains no literal `<` or `>` outside the wrapping tags. -/
theorem c3_escape_amended (c : List Char) (h1 : c ≠ []) (h2 : btick ∉ c)
    (h3 : '$' ∉ c) (md : List Char → List Char) :
    render_answer md (btick :: (c ++ [btick])) =
      wrap_cdata (md ("<code>".data ++ sanitize_entities (sanitize_entities c) ++
        "</code>".data)) ∧
    ∀ x ∈ sanitize_entities (sanitize_entities c), x ≠ '<' ∧ x ≠ '>' := by
  have hnbs : btick ∉ sanitize_entities c :=
    not_mem_sanitize h2 (by decide) (by decide) (by decide)
  have hnes : sanitize_entities c ≠ [] := sanitize_ne_nil h1
  have hcode : has_single_line_code (btick :: (c ++ [btick])) = true := by
    unfold has_single_line_code
    rw [hasCodeGo_none_btick]
    exact hasCodeGo_some_false [] h2 h1
  have hsan : sanitize_entities (btick :: (c ++ [btick])) =
      btick :: (sanitize_entities c ++ [btick]) := by
    rw [show (btick :: (c ++ [btick])) = [btick] ++ (c ++ [btick]) from rfl]
    rw [sanitize_append, sanitize_append]
    simp [show sanitize_entities [btick] = [btick] from rfl]
  have hsub : sub_single_line_code (sanitize_entities (btick :: (c ++ [btick]))) =
      replace_single_line_code (sanitize_entities c) := by
    rw [hsan]
    unfold sub_single_line_code
    rw [codeSubGo_none_btick]
    have h9 := codeSubGo_close (b := sanitize_entities c) [] [] hnbs (by simpa using hnes)
    simpa [codeSubGo] using h9
  have hnd : '$' ∉ replace_single_line_code (sanitize_entities c) := by
    unfold replace_single_line_code
    intro hm
    rcases List.mem_append.1 hm with hm1 | hm1
    · rcases List.mem_append.1 hm1 with hm2 | hm2
      · revert hm2
        decide
      · exact not_mem_sanitize
          (not_mem_sanitize h3 (by decide) (by decide) (by decide))
          (by decide) (by decide) (by decide) hm2
    · revert hm1
      decide
  have hndl : has_single_dollar_latex (replace_single_line_code (sanitize_entities c)) =
      false := has_single_dollar_latex_false hnd
  constructor
  · unfold render_answer answerTransformed
    simp only [hcode, if_true, hsub, hndl, if_false]
    simp [replace_single_line_code]
  · intro x hx
    refine ⟨fun hh => ?_, fun hh => ?_⟩
    · exact (sanitize_no_lt_gt (sanitize_entities c)).1 (hh ▸ hx)
    · exact (sanitize_no_lt_gt (sanitize_entities c)).2 (hh ▸ hx)

/-- Witness for the amended C3 at the concrete answer text given by a
code span with content `a&b`. -/
theorem c3_escape_amended_witness :
    render_answer (fun s => s) (btick :: ("a&b".data ++ [btick])) =
      wrap_cdata ("<code>".data ++ sanitize_entities (sanitize_entities "a&b".data) ++
        "</code>".data) :=
  (c3_escape_amended "a&b".data (by decide) (by decide) (by decide) (fun s => s)).1

/-- C8: an answer containing an inline-code span or a single-dollar math
span is returned CDATA-wrapped around the markdown-rendered transformed
text; an answer containing neither is returned unchanged.  Scenario 5 is
included concretely: a backtick span around `x` gives CDATA around the
rendering of `<code>x</code>`, and `plain` is returned verbatim. -/
theorem c8_answer_wrapping (md : List Char → List Char) (text : List Char) :
    ((has_single_line_code text = true ∨ has_single_dollar_latex text = true) →
      render_answer md text = wrap_cdata (md (answerTransformed text).1)) ∧
    (has_single_line_code text = false ∧ has_single_dollar_latex text = false →
      render_answer md text = text) ∧
    render_answer md "`x`".data = wrap_cdata (md "<code>x</code>".data) ∧
    render_answer md "plain".data = "plain".data := by
  refine ⟨?_, ?_, rfl, rfl⟩
  · intro h
    have hflag : (answerTransformed text).2 = true := by
      unfold answerTransformed
      rcases h with h | h
      · simp only [h, if_true]
        split <;> rfl
      · by_cases hc : has_single_line_code text
        · simp only [hc, if_true]
          split <;> rfl
        · simp only [hc, if_false, Bool.false_eq_true]
          simp only [h, if_true]
    simp only [render_answer]
    rw [hflag]
    simp
  · intro ⟨hc, hd⟩
    unfold render_answer answerTransformed
    simp [hc, hd]

/-- Witness for C8 at the concrete code-span answer from Scenario 5. -/
theorem c8_answer_wrapping_witness :
    render_answer (fun s => s) "`x`".data = wrap_cdata "<code>x</code>".data :=
  (c8_answer_wrapping (fun s => s) "`x`".data).2.2.1

/-- Evaluation of the single-dollar substitution on one full span:
`$b$` with `b` free of `$` and newlines maps to `replace_latex b`. -/
theorem sub_single_dollar_span (b : List Char) (h1 : b ≠ []) (h2 : '$' ∉ b)
    (h3 : '\n' ∉ b) :
    sub_single_dollar_latex ('$' :: (b ++ ['$'])) = replace_latex b := by
  have hlen : 1 ≤ b.length := List.length_pos.2 h1
  have hnl : '\n' ∉ '$' :: (b ++ ['$']) := by
    intro hm
    rcases List.mem_cons.1 hm with hm1 | hm1
    · exact absurd hm1 (by decide)
    · rcases List.mem_append.1 hm1 with hm2 | hm2
      · exact h3 hm2
      · exact absurd hm2 (by decide)
  unfold sub_single_dollar_latex
  rw [splitNL_no_nl hnl, List.map_singleton, joinNL_single]
  rw [dollarLineSub]
  rw [if_pos rfl, lastDollarIdx_append h2]
  show (if 1 ≤ b.length then
      replace_latex (List.take b.length (b ++ ['$'])) ++
        dollarLineSub (List.drop (b.length + 1) (b ++ ['$']))
    else '$' :: dollarLineSub (b ++ ['$'])) = replace_latex b
  rw [if_pos hlen]
  rw [List.take_left' rfl]
  rw [show b.length + 1 = (b ++ ['$']).length by simp]
  rw [List.drop_length]
  rw [show dollarLineSub [] = [] from by rw [dollarLineSub], List.append_nil]

/-- Evaluation of the double-dollar substitution on one full block:
`$$b$$` with `b` free of `$` and newlines maps to `replace_latex b`. -/
theorem sub_double_dollar_span (b : List Char) (h1 : b ≠ []) (h2 : '$' ∉ b)
    (h3 : '\n' ∉ b) :
    sub_double_dollar_latex ('$' :: '$' :: (b ++ ['$', '$'])) = replace_latex b := by
  have hlen : 1 ≤ b.length := List.length_pos.2 h1
  have hnl : '\n' ∉ '$' :: '$' :: (b ++ ['$', '$']) := by
    intro hm
    rcases List.mem_cons.1 hm with hm1 | hm1
    · exact absurd hm1 (by decide)
    · rcases List.mem_cons.1 hm1 with hm2 | hm2
      · exact absurd hm2 (by decide)
      · rcases List.mem_append.1 hm2 with hm3 | hm3
        · exact h3 hm3
        · exact absurd hm3 (by decide)
  unfold sub_double_dollar_latex
  rw [splitNL_no_nl hnl, List.map_singleton, joinNL_single]
  rw [ddollarLineSub]
  rw [lastDDIdx_append h2]
  show (if 1 ≤ b.length then
      replace_latex (List.take b.length (b ++ ['$', '$'])) ++
        ddollarLineSub (List.drop (b.length + 2) (b ++ ['$', '$']))
    else '$' :: ddollarLineSub ('$' :: (b ++ ['$', '$']))) = replace_latex b
  rw [if_pos hlen]
  rw [List.take_left' rfl]
  rw [show b.length + 2 = (b ++ ['$', '$']).length by simp]
  rw [List.drop_length]
  rw [show ddollarLineSub [] = [] from by rw [ddollarLineSub], List.append_nil]

/-- Counterexample to C7 as stated: the source literal `'\\\\\\('`
denotes three backslashes followed by `(`, so `$x$` becomes
`\\\\\\(x\\\\)` — the opening delimiter carries three backslashes, not
the two-backslash `\\\\(` the claim names (the closing one is `\\\\)` as
claimed). -/
theorem c7_latex_cex :
    sub_single_dollar_latex "$x$".data =
      ['\\', '\\', '\\', '(', 'x', '\\', '\\', ')'] ∧
    sub_single_dollar_latex "$x$".data ≠ ['\\', '\\', '(', 'x', '\\', '\\', ')'] := by
  have he : sub_single_dollar_latex "$x$".data =
      ['\\', '\\', '\\', '(', 'x', '\\', '\\', ')'] := by
    have h := sub_single_dollar_span ['x'] (by decide) (by decide) (by decide)
    exact h
  exact ⟨he, by rw [he]; decide⟩

/-- C7 (amended): double-dollar blocks and single-dollar spans go through
the same `replace_latex` normalization — `(` to `\left(`, `)` to
`\right)` — and both collapse to the same inline form, whose opening
delimiter is the three-backslash sequence and whose closing delimiter is
the two-backslash sequence. -/
theorem c7_latex_amended (b : List Char) (h1 : b ≠ []) (h2 : '$' ∉ b)
    (h3 : '\n' ∉ b) :
    sub_double_dollar_latex ("$$".data ++ b ++ "$$".data) = replace_latex b ∧
    sub_single_dollar_latex ("$".data ++ b ++ "$".data) = replace_latex b ∧
    replace_latex b =
      ['\\', '\\', '\\', '('] ++
        replaceChar ')' "\\right)".data (replaceChar '(' "\\left(".data b) ++
        ['\\', '\\', ')'] := by
  refine ⟨?_, ?_, rfl⟩
  · rw [show "$$".data ++ b ++ "$$".data = '$' :: '$' :: (b ++ ['$', '$']) by simp]
    exact sub_double_dollar_span b h1 h2 h3
  · rw [show "$".data ++ b ++ "$".data = '$' :: (b ++ ['$']) by simp]
    exact sub_single_dollar_span b h1 h2 h3

/-- Witness for the amended C7 at the concrete math body `a(b)`. -/
theorem c7_latex_amended_witness :
    sub_double_dollar_latex ("$$".data ++ "a(b)".data ++ "$$".data) =
      replace_latex "a(b)".data ∧
    sub_single_dollar_latex ("$".data ++ "a(b)".data ++ "$".data) =
      replace_latex "a(b)".data ∧
    replace_latex "a(b)".data =
      ['\\', '\\', '\\', '('] ++
        replaceChar ')' "\\right)".data (replaceChar '(' "\\left(".data "a(b)".data) ++
        ['\\', '\\', ')'] :=
  c7_latex_amended "a(b)".data (by decide) (by decide) (by decide)

/-!  ### Helper lemmas about `str.find` for the fenced-code branch -/

theorem firstIdxSub_eq_none_iff (pat : List Char) (s : List Char) :
    firstIdxSub pat s = none ↔ containsSub pat s = false := by
  induction s with
  | nil =>
    by_cases hp : pat.isEmpty
    · simp [firstIdxSub, containsSub, hp]
    · simp [firstIdxSub, containsSub, hp]
  | cons c t ih =>
    simp only [firstIdxSub, containsSub]
    by_cases hp : pat.isPrefixOf (c :: t)
    · simp [hp]
    · simp only [hp, if_false, Bool.false_or, Option.map_eq_none]
      simpa using ih

theorem firstIdxSub_zero_of_isPrefixOf {pat s : List Char} (hpat : pat ≠ [])
    (h : pat.isPrefixOf s = true) : firstIdxSub pat s = some 0 := by
  cases s with
  | nil =>
    cases pat with
    | nil => exact absurd rfl hpat
    | cons p pt => simp [List.isPrefixOf] at h
  | cons c t =>
    simp only [firstIdxSub, h, if_true]

theorem firstIdxSub_pos {pat s : List Char} (hcon : containsSub pat s = true)
    (hnp : pat.isPrefixOf s = false) : ∃ i, firstIdxSub pat s = some i ∧ 0 < i := by
  cases s with
  | nil =>
    simp only [containsSub] at hcon
    have hpe : pat = [] := List.isEmpty_iff.1 hcon
    subst hpe
    simp [List.isPrefixOf] at hnp
  | cons c t =>
    simp only [containsSub, hnp, Bool.false_or] at hcon
    simp only [firstIdxSub, hnp, if_false, Bool.false_eq_true]
    rcases hidx : firstIdxSub pat t with _ | j
    · rw [firstIdxSub_eq_none_iff] at hidx
      rw [hidx] at hcon
      exact absurd hcon (by simp)
    · exact ⟨j + 1, rfl, Nat.succ_pos j⟩

/-- Counterexample to C4 as stated: a fenced block whose language tag is
exactly `{img}` does contain the token, yet `lexer.find('{img}') > 0` is
false at index 0, so the block is HTML-escaped into `<pre><code>` instead
of being rasterized to an `<img>` tag. -/
theorem c4_img_cex :
    containsSub "{img}".data "{img}".data = true ∧
    replace_multi_line_code (fun lx cd => "HL:".data ++ lx ++ cd) "{img}".data "x".data =
      "<pre><code>x</code></pre>".data := by
  exact ⟨rfl, rfl⟩

/-- C4 (amended): a fenced block is rasterized exactly when the language
tag contains `{img}` at a position strictly after the start (equivalently:
contains it and does not start with it); then all `{img}` occurrences are
stripped and the abstract highlighter output is wrapped in the base64
`<img>` tag.  A tag that does not contain `{img}` — or contains it only
as a prefix, including the tag being exactly `{img}` — is HTML-escaped
and wrapped in `<pre><code>…</code></pre>`. -/
theorem c4_img_amended (hl : List Char → List Char → List Char)
    (lexer code : List Char) :
    (containsSub "{img}".data lexer = true → "{img}".data.isPrefixOf lexer = false →
      replace_multi_line_code hl lexer code =
        convert_code_image_base64 hl (replaceSub "{img}".data [] lexer) code) ∧
    ((containsSub "{img}".data lexer = false ∨ "{img}".data.isPrefixOf lexer = true) →
      replace_multi_line_code hl lexer code =
        "<pre><code>".data ++ sanitize_entities code ++ "</code></pre>".data) := by
  constructor
  · intro hcon hpre
    obtain ⟨i, hi, hipos⟩ := firstIdxSub_pos hcon hpre
    unfold replace_multi_line_code
    rw [hi]
    simp [hipos]
  · intro h
    unfold replace_multi_line_code
    rcases h with h | h
    · rw [(firstIdxSub_eq_none_iff _ _).2 h]
      simp
    · rw [firstIdxSub_zero_of_isPrefixOf (by decide) h]
      simp

/-- Witness for the amended C4 at the concrete language tag `c{img}`. -/
theorem c4_img_amended_witness :
    replace_multi_line_code (fun lx cd => lx ++ cd) "c{img}".data "x".data =
      convert_code_image_base64 (fun lx cd => lx ++ cd)
        (replaceSub "{img}".data [] "c{img}".data) "x".data :=
  (c4_img_amended (fun lx cd => lx ++ cd) "c{img}".data "x".data).1 (by decide) (by decide)

/-!  ### Line-classification shape lemmas -/

theorem question_shape {l : List Char} (h : is_question l = true) :
    ∃ c2 r, l.dropWhile isWS = '*' :: c2 :: r := by
  unfold is_question get_question at h
  split at h
  next c c2 rest heq =>
    by_cases hc : c = '*' ∧ isWS c2
    · obtain ⟨hc1, hc2⟩ := hc
      subst hc1
      exact ⟨c2, rest, heq⟩
    · rw [if_neg hc] at h
      simp at h
  next => simp at h

theorem correct_shape {l : List Char} (h : is_correct_answer l = true) :
    ∃ c2 r, l.dropWhile isWS = '-' :: c2 :: r := by
  unfold is_correct_answer get_correct_answer at h
  split at h
  next c c2 c3 rest heq =>
    by_cases hc : c = '-' ∧ isWS c2 ∧ c3 = '!'
    · obtain ⟨hc1, hc2⟩ := hc
      subst hc1
      exact ⟨c2, c3 :: rest, heq⟩
    · rw [if_neg hc] at h
      simp at h
  next => simp at h

theorem wrong_shape {l : List Char} (h : is_wrong_answer l = true) :
    ∃ c2 r, l.dropWhile isWS = '-' :: c2 :: r := by
  unfold is_wrong_answer get_wrong_answer at h
  split at h
  next c c2 rest heq =>
    by_cases hc : c = '-' ∧ isWS c2 ∧ rest ≠ [] ∧ rest.getLast? ≠ some ' '
    · obtain ⟨hc1, hc2⟩ := hc
      subst hc1
      exact ⟨c2, rest, heq⟩
    · rw [if_neg hc] at h
      simp at h
  next => simp at h

theorem not_header_of_question {l : List Char} (h : is_question l = true) :
    is_header l = false := by
  obtain ⟨c2, r, hd⟩ := question_shape h
  unfold is_header get_header
  rw [hd]
  show (if ('*' : Char) = '#' ∧ c2 = ' ' then some r else none).isSome = false
  rw [if_neg (by simp)]
  rfl

theorem not_header_of_answer {l : List Char}
    (h : is_correct_answer l = true ∨ is_wrong_answer l = true) :
    is_header l = false := by
  obtain ⟨c2, r, hd⟩ := h.elim correct_shape wrong_shape
  unfold is_header get_header
  rw [hd]
  show (if ('-' : Char) = '#' ∧ c2 = ' ' then some r else none).isSome = false
  rw [if_neg (by simp)]
  rfl

theorem not_question_of_answer {l : List Char}
    (h : is_correct_answer l = true ∨ is_wrong_answer l = true) :
    is_question l = false := by
  obtain ⟨c2, r, hd⟩ := h.elim correct_shape wrong_shape
  unfold is_question get_question
  rw [hd]
  show (if ('-' : Char) = '*' ∧ isWS c2 = true then some r else none).isSome = false
  rw [if_neg (by simp)]
  rfl

theorem classify_blank {row : List Char} (h : isEmptyRow row = true) :
    is_header row = false ∧ is_question row = false ∧
    is_correct_answer row = false ∧ is_wrong_answer row = false := by
  have hd : row.dropWhile isWS = [] := by
    rw [List.dropWhile_eq_nil_iff]
    intro x hx
    exact (List.all_eq_true.1 h) x hx
  refine ⟨?_, ?_, ?_, ?_⟩ <;>
    simp [is_header, get_header, is_question, get_question,
      is_correct_answer, get_correct_answer, is_wrong_answer, get_wrong_answer, hd]

/-!  ### Read-after-write lemmas for the current-question text -/

theorem getLast?_modifyLast (f : Question → Question) (l : List Question) :
    (modifyLast f l).getLast? = l.getLast?.map f := by
  induction l with
  | nil => rfl
  | cons q qs ih =>
    cases qs with
    | nil => rfl
    | cons q2 qs2 =>
      show (q :: modifyLast f (q2 :: qs2)).getLast? = ((q :: q2 :: qs2).getLast?).map f
      have hne : modifyLast f (q2 :: qs2) ≠ [] := by
        cases qs2 <;> simp [modifyLast]
      obtain ⟨m, ms, hm⟩ := List.exists_cons_of_ne_nil hne
      rw [hm, List.getLast?_cons_cons, ← hm, ih, List.getLast?_cons_cons]

theorem lookupSec_updateSec (d : List (List Char × List Question)) (c : List Char)
    (f : List Question → List Question) :
    lookupSec (updateSec d c f) c = (lookupSec d c).map f := by
  induction d with
  | nil => rfl
  | cons e d2 ih =>
    by_cases he : e.1 = c
    · simp [updateSec, lookupSec, List.find?, he]
    · have hb : (e.1 == c) = false := by simp [he]
      simp only [updateSec, List.map_cons, if_neg he]
      simp only [lookupSec, List.find?, hb] at ih ⊢
      exact ih

theorem curText_appendToCurText (s : PState) (suffix t : List Char)
    (h : curText s = some t) :
    curText (appendToCurText s suffix) = some (t ++ suffix) := by
  cases hcur : s.cur with
  | missing => simp [curText, hcur] at h
  | loose t2 =>
    simp only [curText, hcur, Option.some.injEq] at h
    subst h
    simp [curText, appendToCurText, hcur]
  | attached loc =>
    cases loc with
    | orphan =>
      simp only [curText, hcur] at h
      cases hg : s.orphan.getLast? with
      | none => rw [hg] at h; simp at h
      | some q =>
        have h2 : Option.map Question.text (some q) = some t := by rw [← hg]; exact h
        simp only [Option.map_some', Option.some.injEq] at h2
        simp [curText, appendToCurText, hcur, getLast?_modifyLast, hg, h2]
    | dict c =>
      simp only [curText, hcur] at h
      cases hl : lookupSec s.dict c with
      | none => rw [hl] at h; simp at h
      | some l =>
        rw [hl] at h
        have h2 : Option.map Question.text l.getLast? = some t := h
        cases hg : l.getLast? with
        | none => rw [hg] at h2; simp at h2
        | some q =>
          rw [hg] at h2
          simp only [Option.map_some', Option.some.injEq] at h2
          simp [curText, appendToCurText, hcur, lookupSec_updateSec, hl,
            getLast?_modifyLast, hg, h2]
  | detached q =>
    simp only [curText, hcur, Option.some.injEq] at h
    subst h
    simp [curText, appendToCurText, hcur]

/-!  ### The blank-line step -/

theorem step_blank {s : PState} {row : List Char} (h : isEmptyRow row = true) :
    step s row = Except.ok (blankStep s row) := by
  obtain ⟨h1, h2, h3, h4⟩ := classify_blank h
  unfold step
  simp [h1, h2, h3, h4, h]

/-- Counterexample to C6 as stated: the blank line consisting of a single
space, inside a question whose text contains a triple backtick, appends
the space *and* a newline (`md_row + '\n'`), not just a newline — the
resulting text is `Q ``` \n`, not the `Q ```\n` the claim's "appending a
newline" predicts. -/
theorem c6_blank_cex :
    md_script_to_dictionary "# H\n* Q ```\n ".data =
      Except.ok [("H".data, [⟨"Q ``` \n".data, [], some true⟩])] ∧
    ("Q ``` \n".data : List Char) ≠ "Q ```\n".data := by
  exact ⟨rfl, by decide⟩

/-- C6 (amended): on a blank (whitespace-only) row, if the current
question's accumulated text contains a triple backtick anywhere, the
parser appends the row's content followed by a newline (for a truly empty
row this is exactly one newline); otherwise the text — and the whole
state — is unchanged. -/
theorem c6_blank_amended (s : PState) (row : List Char) (h : isEmptyRow row = true) :
    step s row = Except.ok (blankStep s row) ∧
    curText (blankStep s row) =
      (curText s).map
        (fun t => if containsSub "```".data t then t ++ (row ++ ['\n']) else t) := by
  refine ⟨step_blank h, ?_⟩
  unfold blankStep
  cases hct : curText s with
  | none => exact hct
  | some t =>
    by_cases hc : containsSub "```".data t
    · simp only [hc, if_true]
      rw [curText_appendToCurText s (row ++ ['\n']) t hct]
      simp [hc]
    · have hcf : containsSub "```".data t = false := by simpa using hc
      simp only [hcf, Bool.false_eq_true, if_false]
      rw [hct]
      simp [hcf]

/-- Witness for the amended C6 at a concrete state holding a question
whose text is `Q ``` ` and a blank row of one space. -/
theorem c6_blank_amended_witness :
    step ⟨[("H".data, [⟨"Q ```".data, [], none⟩])], some "H".data, [],
        .attached (.dict "H".data)⟩ " ".data =
      Except.ok (blankStep ⟨[("H".data, [⟨"Q ```".data, [], none⟩])], some "H".data, [],
        .attached (.dict "H".data)⟩ " ".data) ∧
    curText (blankStep ⟨[("H".data, [⟨"Q ```".data, [], none⟩])], some "H".data, [],
        .attached (.dict "H".data)⟩ " ".data) =
      (curText ⟨[("H".data, [⟨"Q ```".data, [], none⟩])], some "H".data, [],
        .attached (.dict "H".data)⟩).map
        (fun t => if containsSub "```".data t then t ++ (" ".data ++ ['\n']) else t) :=
  c6_blank_amended _ " ".data (by decide)

/-!  ### Step lemmas: which rows can fail, and how the current-question
reference evolves -/

theorem curHasAnswers_detachIfAt (s : PState) (c : List Char) :
    curHasAnswers (detachIfAt s c).cur = curHasAnswers s.cur := by
  unfold detachIfAt
  split
  next c2 heq =>
    split
    next =>
      split
      next q hq => simp [heq, curHasAnswers]
      next => rfl
    next => rfl
  next => rfl

theorem curHasAnswers_appendToCurText (s : PState) (x : List Char) :
    curHasAnswers (appendToCurText s x).cur = curHasAnswers s.cur := by
  unfold appendToCurText
  split <;> simp_all [curHasAnswers]

theorem curHasAnswers_blankStep (s : PState) (row : List Char) :
    curHasAnswers (blankStep s row).cur = curHasAnswers s.cur := by
  unfold blankStep
  split
  next => rfl
  next t heq =>
    split
    · exact curHasAnswers_appendToCurText s _
    · rfl

theorem addAnswerTo_spec (s : PState) (a : Answer) :
    (curHasAnswers s.cur = true →
      ∃ s1, addAnswerTo s a = Except.ok s1 ∧ curHasAnswers s1.cur = true) ∧
    (curHasAnswers s.cur = false → addAnswerTo s a = Except.error ()) := by
  cases hcur : s.cur with
  | missing =>
    refine ⟨fun ht => ?_, fun _ => ?_⟩
    · simp [curHasAnswers] at ht
    · unfold addAnswerTo
      rw [hcur]
  | loose t =>
    refine ⟨fun ht => ?_, fun _ => ?_⟩
    · simp [curHasAnswers] at ht
    · unfold addAnswerTo
      rw [hcur]
  | attached loc =>
    refine ⟨fun _ => ?_, fun hf => ?_⟩
    · cases loc with
      | orphan =>
        refine ⟨_, by unfold addAnswerTo; rw [hcur], ?_⟩
        simp [curHasAnswers, hcur]
      | dict c =>
        refine ⟨_, by unfold addAnswerTo; rw [hcur], ?_⟩
        simp [curHasAnswers, hcur]
    · simp [curHasAnswers] at hf
  | detached q =>
    refine ⟨fun _ => ?_, fun hf => ?_⟩
    · refine ⟨_, by unfold addAnswerTo; rw [hcur], ?_⟩
      simp [curHasAnswers]
    · simp [curHasAnswers] at hf

theorem step_question_ok {s : PState} {r : List Char} (hq : is_question r = true) :
    ∃ s1, step s r = Except.ok s1 ∧ curHasAnswers s1.cur = true := by
  unfold step
  simp only [not_header_of_question hq, Bool.false_eq_true, if_false, hq, if_true]
  cases ha : s.active with
  | none => exact ⟨_, rfl, rfl⟩
  | some c => exact ⟨_, rfl, rfl⟩

theorem step_nonq_nona_ok {s : PState} {r : List Char} (hq : is_question r = false)
    (hc : is_correct_answer r = false) (hw : is_wrong_answer r = false) :
    ∃ s1, step s r = Except.ok s1 ∧ curHasAnswers s1.cur = curHasAnswers s.cur := by
  unfold step
  by_cases hh : is_header r
  · simp only [hh, if_true]
    refine ⟨_, rfl, ?_⟩
    simpa using curHasAnswers_detachIfAt s ((get_header r).getD [])
  · have hhf : is_header r = false := by simpa using hh
    simp only [hhf, Bool.false_eq_true, if_false, hq, hc, hw]
    by_cases he : isEmptyRow r
    · simp only [he, if_true]
      exact ⟨_, rfl, curHasAnswers_blankStep s r⟩
    · have hef : isEmptyRow r = false := by simpa using he
      simp only [hef, Bool.false_eq_true, if_false]
      exact ⟨_, rfl, curHasAnswers_appendToCurText s _⟩

theorem step_answer {s : PState} {r : List Char}
    (ha : is_correct_answer r = true ∨ is_wrong_answer r = true) :
    (curHasAnswers s.cur = true →
      ∃ s1, step s r = Except.ok s1 ∧ curHasAnswers s1.cur = true) ∧
    (curHasAnswers s.cur = false → step s r = Except.error ()) := by
  unfold step
  simp only [not_header_of_answer ha, not_question_of_answer ha,
    Bool.false_eq_true, if_false]
  rcases hac : is_correct_answer r with _ | _
  · rcases ha with ha2 | ha2
    · rw [hac] at ha2
      simp at ha2
    · simp only [hac, Bool.false_eq_true, if_false, ha2, if_true]
      exact addAnswerTo_spec s _
  · simp only [if_true]
    exact addAnswerTo_spec s _

/-!  ### Fold lemmas for the parser loop -/

theorem processRows_append (s : PState) (xs ys : List (List Char)) :
    processRows s (xs ++ ys) =
      match processRows s xs with
      | .error e => .error e
      | .ok s2 => processRows s2 ys := by
  induction xs generalizing s with
  | nil => rfl
  | cons r rs ih =>
    show processRows s (r :: (rs ++ ys)) = _
    cases hst : step s r with
    | error e => simp only [processRows, hst]
    | ok s1 =>
      simp only [processRows, hst]
      exact ih s1

theorem processRows_ok {rs : List (List Char)} :
    ∀ s : PState, answersAfterQuestion (curHasAnswers s.cur) rs = true →
      ∃ s2, processRows s rs = Except.ok s2 := by
  induction rs with
  | nil => exact fun s _ => ⟨s, rfl⟩
  | cons r rs2 ih =>
    intro s hflag
    unfold answersAfterQuestion at hflag
    by_cases hq : is_question r
    · rw [if_pos hq] at hflag
      obtain ⟨s1, hst, hcur⟩ := step_question_ok (s := s) hq
      obtain ⟨s2, hp⟩ := ih s1 (by rw [hcur]; exact hflag)
      exact ⟨s2, by simp only [processRows, hst]; exact hp⟩
    · rw [if_neg hq] at hflag
      by_cases hans : is_correct_answer r = true ∨ is_wrong_answer r = true
      · have hor : (is_correct_answer r || is_wrong_answer r) = true := by
          rcases hans with h | h <;> simp [h]
        simp only [hor, if_true, Bool.and_eq_true] at hflag
        obtain ⟨hseen, hrec⟩ := hflag
        obtain ⟨s1, hst, hcur⟩ := (step_answer (s := s) hans).1 hseen
        obtain ⟨s2, hp⟩ := ih s1 (by rw [hcur]; rw [hseen] at hrec; exact hrec)
        exact ⟨s2, by simp only [processRows, hst]; exact hp⟩
      · have hcf : is_correct_answer r = false := by
          rcases hc2 : is_correct_answer r with _ | _
          · rfl
          · exact absurd (Or.inl hc2) hans
        have hwf : is_wrong_answer r = false := by
          rcases hw2 : is_wrong_answer r with _ | _
          · rfl
          · exact absurd (Or.inr hw2) hans
        have hqf : is_question r = false := by simpa using hq
        rw [if_neg (by simp [hcf, hwf])] at hflag
        obtain ⟨s1, hst, hcur⟩ := step_nonq_nona_ok (s := s) hqf hcf hwf
        obtain ⟨s2, hp⟩ := ih s1 (by rw [hcur]; exact hflag)
        exact ⟨s2, by simp only [processRows, hst]; exact hp⟩

/-!  ### Before the first header, the dictionary stays empty -/

theorem appendToCurText_empty {s : PState} {x : List Char} (hd : s.dict = []) :
    (appendToCurText s x).dict = [] ∧ (appendToCurText s x).active = s.active := by
  unfold appendToCurText
  split <;> simp [hd, updateSec]

theorem blankStep_empty {s : PState} {r : List Char} (hd : s.dict = []) :
    (blankStep s r).dict = [] ∧ (blankStep s r).active = s.active := by
  unfold blankStep
  split
  next => exact ⟨hd, rfl⟩
  next t heq =>
    split
    · exact appendToCurText_empty hd
    · exact ⟨hd, rfl⟩

theorem addAnswerTo_empty {s : PState} {a : Answer} {s1 : PState} (hd : s.dict = [])
    (hst : addAnswerTo s a = Except.ok s1) :
    s1.dict = [] ∧ s1.active = s.active := by
  unfold addAnswerTo at hst
  split at hst
  · simp at hst
  · simp at hst
  · obtain rfl := Except.ok.inj hst
    exact ⟨hd, rfl⟩
  · obtain rfl := Except.ok.inj hst
    simp [hd, updateSec]
  · obtain rfl := Except.ok.inj hst
    exact ⟨hd, rfl⟩

theorem step_preserves_empty {s : PState} {r : List Char} {s1 : PState}
    (hd : s.dict = []) (ha : s.active = none) (hh : is_header r = false)
    (hst : step s r = Except.ok s1) :
    s1.dict = [] ∧ s1.active = none := by
  unfold step at hst
  rw [hh] at hst
  simp only [Bool.false_eq_true, if_false] at hst
  by_cases hq : is_question r
  · simp only [hq, if_true] at hst
    rw [ha] at hst
    obtain rfl := Except.ok.inj hst
    exact ⟨hd, rfl⟩
  · have hqf : is_question r = false := by simpa using hq
    simp only [hqf, Bool.false_eq_true, if_false] at hst
    by_cases hc : is_correct_answer r
    · simp only [hc, if_true] at hst
      obtain ⟨h1, h2⟩ := addAnswerTo_empty hd hst
      exact ⟨h1, h2.trans ha⟩
    · have hcf : is_correct_answer r = false := by simpa using hc
      simp only [hcf, Bool.false_eq_true, if_false] at hst
      by_cases hw : is_wrong_answer r
      · simp only [hw, if_true] at hst
        obtain ⟨h1, h2⟩ := addAnswerTo_empty hd hst
        exact ⟨h1, h2.trans ha⟩
      · have hwf : is_wrong_answer r = false := by simpa using hw
        simp only [hwf, Bool.false_eq_true, if_false] at hst
        by_cases he : isEmptyRow r
        · simp only [he, if_true] at hst
          obtain rfl := Except.ok.inj hst
          obtain ⟨h1, h2⟩ := blankStep_empty (s := s) (r := r) hd
          exact ⟨h1, h2.trans ha⟩
        · have hef : isEmptyRow r = false := by simpa using he
          simp only [hef, Bool.false_eq_true, if_false] at hst
          obtain rfl := Except.ok.inj hst
          obtain ⟨h1, h2⟩ := appendToCurText_empty (s := s) (x := r ++ ['\n']) hd
          exact ⟨h1, h2.trans ha⟩

theorem processRows_empty {rs : List (List Char)}
    (hh : ∀ r ∈ rs, is_header r = false) :
    ∀ s s2 : PState, s.dict = [] → s.active = none →
      processRows s rs = Except.ok s2 → s2.dict = [] ∧ s2.active = none := by
  induction rs with
  | nil =>
    intro s s2 hd ha hp
    obtain rfl := Except.ok.inj hp
    exact ⟨hd, ha⟩
  | cons r rs2 ih =>
    intro s s2 hd ha hp
    cases hst : step s r with
    | error e =>
      simp [processRows, hst] at hp
    | ok s1 =>
      simp only [processRows, hst] at hp
      obtain ⟨h1, h2⟩ := step_preserves_empty hd ha (hh r (List.mem_cons_self r rs2)) hst
      exact ih (fun x hx => hh x (List.mem_cons_of_mem _ hx)) s1 s2 h1 h2 hp

/-!  ### Content erasure: only the dictionary and the kind of the
`current_question` reference can influence the output -/

theorem scrubCur_idem (c : Cur) : scrubCur (scrubCur c) = scrubCur c := by
  cases c <;> rfl

theorem scrubState_idem (s : PState) : scrubState (scrubState s) = scrubState s := by
  unfold scrubState
  simp [scrubCur_idem]

theorem scrubState_eq_iff {s s2 : PState} :
    scrubState s = scrubState s2 ↔
      s.dict = s2.dict ∧ s.active = s2.active ∧ scrubCur s.cur = scrubCur s2.cur := by
  unfold scrubState
  constructor
  · intro h
    injection h with hd ha ho hc
    exact ⟨hd, ha, hc⟩
  · intro ⟨h1, h2, h3⟩
    rw [h1, h2, h3]

theorem scrubCur_cases {c c2 : Cur} (h : scrubCur c = scrubCur c2) :
    (c = .missing ∧ c2 = .missing) ∨
    (∃ t t2, c = .loose t ∧ c2 = .loose t2) ∨
    (∃ loc, c = .attached loc ∧ c2 = .attached loc) ∨
    (∃ q, c = .detached q ∧ c2 = .detached q) := by
  cases c with
  | missing =>
    cases c2 with
    | missing => exact Or.inl ⟨rfl, rfl⟩
    | loose t2 => simp [scrubCur] at h
    | attached l => simp [scrubCur] at h
    | detached q => simp [scrubCur] at h
  | loose t =>
    cases c2 with
    | missing => simp [scrubCur] at h
    | loose t2 => exact Or.inr (Or.inl ⟨t, t2, rfl, rfl⟩)
    | attached l => simp [scrubCur] at h
    | detached q => simp [scrubCur] at h
  | attached loc =>
    cases c2 with
    | missing => simp [scrubCur] at h
    | loose t2 => simp [scrubCur] at h
    | attached l2 =>
      simp only [scrubCur, Cur.attached.injEq] at h
      exact Or.inr (Or.inr (Or.inl ⟨loc, rfl, by rw [h]⟩))
    | detached q => simp [scrubCur] at h
  | detached q =>
    cases c2 with
    | missing => simp [scrubCur] at h
    | loose t2 => simp [scrubCur] at h
    | attached l => simp [scrubCur] at h
    | detached q2 =>
      simp only [scrubCur, Cur.detached.injEq] at h
      exact Or.inr (Or.inr (Or.inr ⟨q, rfl, by rw [h]⟩))

theorem appendToCurText_scrub {s s2 : PState} (x : List Char)
    (hd : s.dict = s2.dict) (ha : s.active = s2.active)
    (hc : scrubCur s.cur = scrubCur s2.cur) :
    scrubState (appendToCurText s x) = scrubState (appendToCurText s2 x) := by
  rcases scrubCur_cases hc with ⟨h1, h2⟩ | ⟨t, t2, h1, h2⟩ | ⟨loc, h1, h2⟩ | ⟨q, h1, h2⟩
  · simp [appendToCurText, scrubState, h1, h2, scrubCur, hd, ha]
  · simp [appendToCurText, scrubState, h1, h2, scrubCur, hd, ha]
  · cases loc with
    | orphan => simp [appendToCurText, scrubState, h1, h2, scrubCur, hd, ha]
    | dict c => simp [appendToCurText, scrubState, h1, h2, scrubCur, hd, ha]
  · simp [appendToCurText, scrubState, h1, h2, scrubCur, hd, ha]

theorem blankStep_scrub {s s2 : PState} (row : List Char)
    (hd : s.dict = s2.dict) (ha : s.active = s2.active)
    (hc : scrubCur s.cur = scrubCur s2.cur) :
    scrubState (blankStep s row) = scrubState (blankStep s2 row) := by
  rcases scrubCur_cases hc with ⟨h1, h2⟩ | ⟨t, t2, h1, h2⟩ | ⟨loc, h1, h2⟩ | ⟨q, h1, h2⟩
  · have e1 : curText s = none := by simp [curText, h1]
    have e2 : curText s2 = none := by simp [curText, h2]
    simp only [blankStep, e1, e2]
    exact scrubState_eq_iff.2 ⟨hd, ha, hc⟩
  · have inv : ∀ (u : PState) (tu : List Char), u.cur = .loose tu →
        scrubState (blankStep u row) = scrubState u := by
      intro u tu hu
      have ect : curText u = some tu := by simp [curText, hu]
      simp only [blankStep, ect]
      by_cases hcond : containsSub "```".data tu
      · rw [if_pos hcond]
        simp [appendToCurText, scrubState, hu, scrubCur]
      · rw [if_neg hcond]
    rw [inv s t h1, inv s2 t2 h2]
    exact scrubState_eq_iff.2 ⟨hd, ha, hc⟩
  · cases loc with
    | orphan =>
      have inv : ∀ u : PState, u.cur = .attached .orphan →
          scrubState (blankStep u row) = scrubState u := by
        intro u hu
        cases hct : curText u with
        | none => simp only [blankStep, hct]
        | some t3 =>
          simp only [blankStep, hct]
          by_cases hcond : containsSub "```".data t3
          · rw [if_pos hcond]
            simp [appendToCurText, scrubState, hu, scrubCur]
          · rw [if_neg hcond]
      rw [inv s h1, inv s2 h2]
      exact scrubState_eq_iff.2 ⟨hd, ha, hc⟩
    | dict c =>
      have ect : curText s = curText s2 := by simp [curText, h1, h2, hd]
      cases hct : curText s2 with
      | none =>
        simp only [blankStep, ect, hct]
        exact scrubState_eq_iff.2 ⟨hd, ha, hc⟩
      | some t3 =>
        simp only [blankStep, ect, hct]
        by_cases hcond : containsSub "```".data t3
        · rw [if_pos hcond, if_pos hcond]
          exact appendToCurText_scrub _ hd ha hc
        · rw [if_neg hcond, if_neg hcond]
          exact scrubState_eq_iff.2 ⟨hd, ha, hc⟩
  · have ect : curText s = curText s2 := by simp [curText, h1, h2]
    cases hct : curText s2 with
    | none =>
      simp only [blankStep, ect, hct]
      exact scrubState_eq_iff.2 ⟨hd, ha, hc⟩
    | some t3 =>
      simp only [blankStep, ect, hct]
      by_cases hcond : containsSub "```".data t3
      · rw [if_pos hcond, if_pos hcond]
        exact appendToCurText_scrub _ hd ha hc
      · rw [if_neg hcond, if_neg hcond]
        exact scrubState_eq_iff.2 ⟨hd, ha, hc⟩

theorem addAnswerTo_scrub {s s2 : PState} (a : Answer)
    (hd : s.dict = s2.dict) (ha : s.active = s2.active)
    (hc : scrubCur s.cur = scrubCur s2.cur) :
    Except.map scrubState (addAnswerTo s a) = Except.map scrubState (addAnswerTo s2 a) := by
  rcases scrubCur_cases hc with ⟨h1, h2⟩ | ⟨t, t2, h1, h2⟩ | ⟨loc, h1, h2⟩ | ⟨q, h1, h2⟩
  · simp [addAnswerTo, h1, h2]
  · simp [addAnswerTo, h1, h2]
  · cases loc with
    | orphan => simp [addAnswerTo, h1, h2, Except.map, scrubState, scrubCur, hd, ha]
    | dict c => simp [addAnswerTo, h1, h2, Except.map, scrubState, scrubCur, hd, ha]
  · simp [addAnswerTo, h1, h2, Except.map, scrubState, scrubCur, hd, ha]

theorem detachIfAt_scrub {s s2 : PState} (c : List Char)
    (hd : s.dict = s2.dict) (ha : s.active = s2.active)
    (hc : scrubCur s.cur = scrubCur s2.cur) :
    scrubState (detachIfAt s c) = scrubState (detachIfAt s2 c) := by
  rcases scrubCur_cases hc with ⟨h1, h2⟩ | ⟨t, t2, h1, h2⟩ | ⟨loc, h1, h2⟩ | ⟨q, h1, h2⟩
  · unfold detachIfAt
    rw [h1, h2]
    exact scrubState_eq_iff.2 ⟨hd, ha, hc⟩
  · unfold detachIfAt
    rw [h1, h2]
    exact scrubState_eq_iff.2 ⟨hd, ha, hc⟩
  · cases loc with
    | orphan =>
      unfold detachIfAt
      rw [h1, h2]
      exact scrubState_eq_iff.2 ⟨hd, ha, hc⟩
    | dict c2 =>
      simp only [detachIfAt, h1, h2]
      by_cases he : c2 = c
      · rw [if_pos he, if_pos he, hd]
        cases hlk : (lookupSec s2.dict c).bind List.getLast? with
        | none => exact scrubState_eq_iff.2 ⟨hd, ha, hc⟩
        | some q3 => simp [scrubState, scrubCur, hd, ha]
      · rw [if_neg he, if_neg he]
        exact scrubState_eq_iff.2 ⟨hd, ha, hc⟩
  · unfold detachIfAt
    rw [h1, h2]
    exact scrubState_eq_iff.2 ⟨hd, ha, hc⟩

theorem step_scrub {s s2 : PState} (r : List Char)
    (h : scrubState s = scrubState s2) :
    Except.map scrubState (step s r) = Except.map scrubState (step s2 r) := by
  obtain ⟨hd, ha, hc⟩ := scrubState_eq_iff.1 h
  unfold step
  by_cases hh : is_header r
  · simp only [hh, if_true, Except.map]
    congr 1
    have h5 := detachIfAt_scrub ((get_header r).getD []) hd ha hc
    obtain ⟨h5d, h5a, h5c⟩ := scrubState_eq_iff.1 h5
    refine scrubState_eq_iff.2 ⟨?_, rfl, ?_⟩
    · simp [h5d]
    · simpa using h5c
  · have hhf : is_header r = false := by simpa using hh
    simp only [hhf, Bool.false_eq_true, if_false]
    by_cases hq : is_question r
    · simp only [hq, if_true]
      rw [ha]
      cases ha2 : s2.active with
      | none =>
        simp only [Except.map]
        congr 1
        refine scrubState_eq_iff.2 ⟨?_, ?_, ?_⟩ <;> simp [hd, ha, scrubCur]
      | some c =>
        simp only [Except.map]
        congr 1
        refine scrubState_eq_iff.2 ⟨?_, ?_, ?_⟩ <;> simp [hd, ha, scrubCur]
    · have hqf : is_question r = false := by simpa using hq
      simp only [hqf, Bool.false_eq_true, if_false]
      by_cases hca : is_correct_answer r
      · simp only [hca, if_true]
        exact addAnswerTo_scrub _ hd ha hc
      · have hcaf : is_correct_answer r = false := by simpa using hca
        simp only [hcaf, Bool.false_eq_true, if_false]
        by_cases hwa : is_wrong_answer r
        · simp only [hwa, if_true]
          exact addAnswerTo_scrub _ hd ha hc
        · have hwaf : is_wrong_answer r = false := by simpa using hwa
          simp only [hwaf, Bool.false_eq_true, if_false]
          by_cases he : isEmptyRow r
          · simp only [he, if_true, Except.map]
            congr 1
            exact blankStep_scrub r hd ha hc
          · have hef : isEmptyRow r = false := by simpa using he
            simp only [hef, Bool.false_eq_true, if_false, Except.map]
            congr 1
            exact appendToCurText_scrub _ hd ha hc

theorem processRows_scrub (rs : List (List Char)) :
    ∀ s s2 : PState, scrubState s = scrubState s2 →
      Except.map scrubState (processRows s rs) =
        Except.map scrubState (processRows s2 rs) := by
  induction rs with
  | nil =>
    intro s s2 h
    simp only [processRows, Except.map]
    exact congrArg Except.ok h
  | cons r rs2 ih =>
    intro s s2 h
    have hstep := step_scrub r h
    cases hst : step s r with
    | error e =>
      rw [hst] at hstep
      cases hst2 : step s2 r with
      | error e2 =>
        simp only [processRows, hst, hst2]
      | ok b =>
        rw [hst2] at hstep
        simp [Except.map] at hstep
    | ok a =>
      rw [hst] at hstep
      cases hst2 : step s2 r with
      | error e2 =>
        rw [hst2] at hstep
        simp [Except.map] at hstep
      | ok b =>
        rw [hst2] at hstep
        simp only [Except.map, Except.ok.injEq] at hstep
        simp only [processRows, hst, hst2]
        exact ih a b hstep

theorem map_dict_of_scrub {x y : Except Unit PState}
    (h : Except.map scrubState x = Except.map scrubState y) :
    Except.map (fun s2 => completing_dictionary s2.dict) x =
      Except.map (fun s2 => completing_dictionary s2.dict) y := by
  cases x with
  | error e =>
    cases y with
    | error e2 =>
      cases e
      cases e2
      rfl
    | ok b => simp [Except.map] at h
  | ok a =>
    cases y with
    | error e2 => simp [Except.map] at h
    | ok b =>
      simp only [Except.map, Except.ok.injEq] at h ⊢
      rw [(scrubState_eq_iff.1 h).1]

/-!  ### Before the first header, the current question is never detached -/

theorem appendToCurText_no_detached {s : PState} {x : List Char}
    (hnd : ∀ q, s.cur ≠ Cur.detached q) :
    ∀ q, (appendToCurText s x).cur ≠ Cur.detached q := by
  intro q
  cases hcur : s.cur with
  | missing => simp [appendToCurText, hcur]
  | loose t => simp [appendToCurText, hcur]
  | attached loc => cases loc <;> simp [appendToCurText, hcur]
  | detached q2 => exact absurd hcur (hnd q2)

theorem blankStep_no_detached {s : PState} {row : List Char}
    (hnd : ∀ q, s.cur ≠ Cur.detached q) :
    ∀ q, (blankStep s row).cur ≠ Cur.detached q := by
  intro q
  cases hct : curText s with
  | none =>
    simp only [blankStep, hct]
    exact hnd q
  | some t =>
    simp only [blankStep, hct]
    by_cases hcond : containsSub "```".data t
    · rw [if_pos hcond]
      exact appendToCurText_no_detached hnd q
    · rw [if_neg hcond]
      exact hnd q

theorem addAnswerTo_no_detached {s : PState} {a : Answer} {s1 : PState}
    (hnd : ∀ q, s.cur ≠ Cur.detached q)
    (hst : addAnswerTo s a = Except.ok s1) :
    ∀ q, s1.cur ≠ Cur.detached q := by
  unfold addAnswerTo at hst
  split at hst
  next heq => simp at hst
  next t heq => simp at hst
  next heq =>
    obtain rfl := Except.ok.inj hst
    exact fun q => hnd q
  next c heq =>
    obtain rfl := Except.ok.inj hst
    exact fun q => hnd q
  next q2 heq => exact absurd heq (hnd q2)

theorem step_no_detached {s : PState} {r : List Char} {s1 : PState}
    (hh : is_header r = false) (hnd : ∀ q, s.cur ≠ Cur.detached q)
    (hst : step s r = Except.ok s1) :
    ∀ q, s1.cur ≠ Cur.detached q := by
  unfold step at hst
  rw [hh] at hst
  simp only [Bool.false_eq_true, if_false] at hst
  by_cases hq : is_question r
  · simp only [hq, if_true] at hst
    cases ha2 : s.active with
    | none =>
      rw [ha2] at hst
      obtain rfl := Except.ok.inj hst
      simp
    | some c =>
      rw [ha2] at hst
      obtain rfl := Except.ok.inj hst
      simp
  · have hqf : is_question r = false := by simpa using hq
    simp only [hqf, Bool.false_eq_true, if_false] at hst
    by_cases hca : is_correct_answer r
    · simp only [hca, if_true] at hst
      exact addAnswerTo_no_detached hnd hst
    · have hcaf : is_correct_answer r = false := by simpa using hca
      simp only [hcaf, Bool.false_eq_true, if_false] at hst
      by_cases hwa : is_wrong_answer r
      · simp only [hwa, if_true] at hst
        exact addAnswerTo_no_detached hnd hst
      · have hwaf : is_wrong_answer r = false := by simpa using hwa
        simp only [hwaf, Bool.false_eq_true, if_false] at hst
        by_cases he : isEmptyRow r
        · simp only [he, if_true] at hst
          obtain rfl := Except.ok.inj hst
          exact blankStep_no_detached hnd
        · have hef : isEmptyRow r = false := by simpa using he
          simp only [hef, Bool.false_eq_true, if_false] at hst
          obtain rfl := Except.ok.inj hst
          exact appendToCurText_no_detached hnd

theorem processRows_no_detached {rs : List (List Char)}
    (hh : ∀ r ∈ rs, is_header r = false) :
    ∀ s s2 : PState, (∀ q, s.cur ≠ Cur.detached q) →
      processRows s rs = Except.ok s2 → ∀ q, s2.cur ≠ Cur.detached q := by
  induction rs with
  | nil =>
    intro s s2 hnd hp
    obtain rfl := Except.ok.inj hp
    exact hnd
  | cons r rs2 ih =>
    intro s s2 hnd hp
    cases hst : step s r with
    | error e => simp [processRows, hst] at hp
    | ok a =>
      simp only [processRows, hst] at hp
      exact ih (fun x hx => hh x (List.mem_cons_of_mem _ hx)) a s2
        (step_no_detached (hh r (List.mem_cons_self r rs2)) hnd hst) hp

/-- C5: a question-start line occurring before the first header
contributes no question to the parser's output, even when real sections
follow.  For any input whose rows split as a header-free prefix `pre`
followed by the remaining rows `post` (in particular, `pre` may be the
rows before the input's first header line): whenever processing `pre`
from the initial state succeeds with state `s1`, (i) the dictionary is
still empty and no section is active, (ii) `s1`'s current-question
reference is never a detached question, and (iii) the output of the
whole input equals the output of processing `post` alone from the
content-erased state `⟨[], none, [], scrubCur s1.cur⟩` — a state
containing no question object at all (its dictionary and orphan list are
empty and, by (ii), `scrubCur s1.cur` is `missing`, `loose []`, or a
bare `attached` marker).  Hence nothing parsed before the first header —
in particular no pre-header question and none of its answers — can reach
the output document.  Moreover (second conjunct), when no answer row
occurs in `pre` before a question row, processing `pre` does succeed:
the pre-header question itself is dropped silently, without error. -/
theorem c5_preheader_dropped (script : List Char) (pre post : List (List Char))
    (hsplit : rows script = pre ++ post)
    (hpre : ∀ r ∈ pre, is_header r = false) :
    (∀ s1, processRows initState pre = Except.ok s1 →
      s1.dict = [] ∧ s1.active = none ∧ (∀ q, s1.cur ≠ Cur.detached q) ∧
      md_script_to_dictionary script =
        Except.map (fun s2 => completing_dictionary s2.dict)
          (processRows ⟨[], none, [], scrubCur s1.cur⟩ post)) ∧
    (answersAfterQuestion false pre = true →
      ∃ s1, processRows initState pre = Except.ok s1) := by
  constructor
  · intro s1 hp1
    obtain ⟨h1, h2⟩ := processRows_empty hpre initState s1 rfl rfl hp1
    have h3 : ∀ q, s1.cur ≠ Cur.detached q :=
      processRows_no_detached hpre initState s1 (fun q => by simp [initState]) hp1
    refine ⟨h1, h2, h3, ?_⟩
    have hscrub : scrubState s1 = ⟨[], none, [], scrubCur s1.cur⟩ := by
      unfold scrubState
      rw [h1, h2]
    unfold md_script_to_dictionary
    rw [hsplit, processRows_append, hp1]
    show Except.map (fun s2 => completing_dictionary s2.dict) (processRows s1 post) =
      Except.map (fun s2 => completing_dictionary s2.dict)
        (processRows ⟨[], none, [], scrubCur s1.cur⟩ post)
    rw [← hscrub]
    exact map_dict_of_scrub (processRows_scrub post s1 (scrubState s1) (scrubState_idem s1).symm)
  · intro hflag
    exact processRows_ok initState hflag

/-- Witness for C5 at a concrete input with a question line before the
first of two later sections: the output is computed entirely from the
post-header rows, starting from the content-erased state. -/
theorem c5_preheader_dropped_witness :
    md_script_to_dictionary "* Q?\n# H\n* R".data =
      Except.map (fun s2 => completing_dictionary s2.dict)
        (processRows ⟨[], none, [], scrubCur (Cur.attached Loc.orphan)⟩
          ["# H".data, "* R".data]) :=
  ((c5_preheader_dropped "* Q?\n# H\n* R".data ["* Q?".data]
      ["# H".data, "* R".data] (by decide) (by decide)).1
    ⟨[], none, [⟨"Q?".data, [], none⟩], Cur.attached Loc.orphan⟩ rfl).2.2.2

/-- C10: if the first answer-shaped row of the input comes before any
question-start row, the parse does not return a document: appending the
answer hits the current-question dict without an `answers` key (a
`KeyError` in the source), so `md_script_to_dictionary` raises. -/
theorem c10_answer_before_question (script : List Char) (pre post : List (List Char))
    (l : List Char) (hsplit : rows script = pre ++ l :: post)
    (hpre : ∀ r ∈ pre, is_question r = false ∧ is_correct_answer r = false ∧
      is_wrong_answer r = false)
    (hl : is_correct_answer l = true ∨ is_wrong_answer l = true) :
    md_script_to_dictionary script = Except.error () := by
  have hinv : ∀ rs : List (List Char),
      (∀ r ∈ rs, is_question r = false ∧ is_correct_answer r = false ∧
        is_wrong_answer r = false) →
      ∀ s : PState, curHasAnswers s.cur = false →
        ∃ s2, processRows s rs = Except.ok s2 ∧ curHasAnswers s2.cur = false := by
    intro rs
    induction rs with
    | nil => exact fun _ s hs => ⟨s, rfl, hs⟩
    | cons r rs2 ih =>
      intro hmem s hs
      obtain ⟨hq, hc, hw⟩ := hmem r (List.mem_cons_self r rs2)
      obtain ⟨s1, hst, hcur⟩ := step_nonq_nona_ok (s := s) hq hc hw
      obtain ⟨s2, hp2, hf2⟩ :=
        ih (fun x hx => hmem x (List.mem_cons_of_mem _ hx)) s1 (hcur.trans hs)
      exact ⟨s2, by simp only [processRows, hst]; exact hp2, hf2⟩
  unfold md_script_to_dictionary
  rw [hsplit, processRows_append]
  obtain ⟨s2, hp, hf⟩ := hinv pre hpre initState rfl
  rw [hp]
  show Except.map _ (processRows s2 (l :: post)) = Except.error ()
  have hstep : step s2 l = Except.error () := (step_answer (s := s2) hl).2 hf
  show Except.map _
    (match step s2 l with
     | .error e => Except.error e
     | .ok s3 => processRows s3 post) = Except.error ()
  rw [hstep]
  rfl

/-- Witness for C10 at the concrete script consisting of one correct
answer line. -/
theorem c10_answer_before_question_witness :
    md_script_to_dictionary "- !x".data = Except.error () :=
  c10_answer_before_question "- !x".data [] [] "- !x".data (by decide) (by decide)
    (Or.inl (by decide))

end M2M
